import Mathlib

/-!
# Reasoning-budget sampler (`src/llama-sampling-reasoning-budget.cpp`)

A shallow embedding of the reasoning-budget sampler and proofs about it.

Modelling conventions.

* `llama_token` (an `int32_t` that is only ever compared for equality) is `Int`.
* `float` is an arbitrary carrier `F` with the three things the file uses: the
  operator `+=`, the literal `1e9f`, and `-std::numeric_limits<float>::infinity()`,
  together with the comparison `<` for statements about score order
  (class `FloatOps`).  Every universally quantified theorem therefore holds for
  IEEE-754 binary32 in particular.  `ZScore` is a small concrete carrier
  (integer-valued scores and negative infinity, on which binary32 addition is
  exact for the magnitudes used) for evaluating the definitions.
* `uint32_t used` is a `Nat` and `used++` is `(used + 1) % 2^32`.
* `std::vector` and `std::deque` are `List`s (front of the deque = head of the
  list).  The `(int)` casts of container sizes and the `size_t`/`int64_t` index
  casts are exact for every container that fits in memory, and are modelled as
  the inclusion of `Nat` in `Int`.
* `llama_token_data` and `llama_token_data_array` are declared in `llama.h`;
  the array is the list of its `size` entries with the `selected` and `sorted`
  fields.
* Functions that mutate through pointers return the new values.
* `llama_tokenize` belongs to the host; the lambda `tok` of the constructor takes it as
  a parameter. Its counts are `int32_t` values; where the source negates `INT32_MIN`,
  which is undefined in C++, `tok` has no result.
-/

namespace RBudget

/-! ## Scores -/

/-- The operations on `float` that the sampler uses. -/
class FloatOps (F : Type) where
  /-- The operator `+` on `float` (as used by `logit += bias`). -/
  add : F → F → F
  /-- The literal `1e9f`. -/
  big : F
  /-- The value `-std::numeric_limits<float>::infinity()`. -/
  negInf : F
  /-- The comparison `<` on `float`. -/
  lt : F → F → Bool

/-- A concrete carrier for evaluation: integer-valued scores and negative infinity. -/
inductive ZScore where
  | negInf : ZScore
  | fin (z : Int) : ZScore
deriving DecidableEq, Repr

/-- Addition on `ZScore`: negative infinity absorbs, finite values add. -/
def ZScore.add : ZScore → ZScore → ZScore
  | .fin a, .fin b => .fin (a + b)
  | _, _ => .negInf

/-- Strict order on `ZScore`: negative infinity is below every finite value. -/
def ZScore.lt : ZScore → ZScore → Bool
  | .negInf, .fin _ => true
  | .fin a, .fin b => decide (a < b)
  | _, .negInf => false

instance : FloatOps ZScore where
  add := ZScore.add
  big := ZScore.fin 1000000000
  negInf := ZScore.negInf
  lt := ZScore.lt

/-! ## Data model -/

/-- One candidate (`llama_token_data` of `llama.h`): token id, logit, probability. -/
structure llama_token_data (F : Type) where
  id : Int
  logit : F
  p : F
deriving DecidableEq, Repr

/-- The candidate set (`llama_token_data_array` of `llama.h`); `size` is `data.length`. -/
structure llama_token_data_array (F : Type) where
  data : List (llama_token_data F)
  selected : Int
  sorted : Bool
deriving DecidableEq, Repr

/-- The sampler context `smpl_rbudget_ctx`. -/
structure smpl_rbudget_ctx (F : Type) where
  «open» : List Int
  close : List Int
  window : List Int
  forceq : List Int
  budget : Nat
  used : Nat
  inside : Bool
  hard : Bool
  close_bias : F
  max_win : Int
deriving DecidableEq, Repr

variable {F : Type}

/-! ## Tag matcher and budget tracker -/

/-- The loop of `ends_with`: walk the window and the pattern from their last elements
(both lists are given back to front); stop with `false` at the first mismatch. -/
def ends_with_loop : List Int → List Int → Bool
  | _, [] => true
  | [], _ :: _ => false
  | x :: wr, y :: pr => if x != y then false else ends_with_loop wr pr

/-- The function `smpl_rbudget_ctx::ends_with`. -/
def ends_with (w pat : List Int) : Bool :=
  if (w.length : Int) < (pat.length : Int) then false
  else ends_with_loop w.reverse pat.reverse

/-- The first two lines of `push_tok`: append, then evict the oldest entry on overflow. -/
def push_window (w : List Int) (max_win : Int) (t : Int) : List Int :=
  let w1 := w ++ [t]
  if (w1.length : Int) > max_win then w1.tail else w1

/-- The function `smpl_rbudget_ctx::push_tok`. -/
def push_tok (s : smpl_rbudget_ctx F) (t : Int) : smpl_rbudget_ctx F :=
  let s1 := { s with window := push_window s.window s.max_win t }
  if !s1.inside then
    if !s1.open.isEmpty && ends_with s1.window s1.open then
      { s1 with inside := true, used := 0, forceq := [] }
    else s1
  else
    if !s1.close.isEmpty && ends_with s1.window s1.close then
      { s1 with inside := false, used := 0, forceq := [] }
    else { s1 with used := (s1.used + 1) % 2 ^ 32 }

/-- The function `smpl_rbudget_ctx::begin_force_close`. -/
def begin_force_close (s : smpl_rbudget_ctx F) : smpl_rbudget_ctx F :=
  if s.forceq.isEmpty then { s with forceq := s.forceq ++ s.close } else s

/-- The function `smpl_rbudget_accept`. -/
def smpl_rbudget_accept (s : smpl_rbudget_ctx F) (tok : Int) : smpl_rbudget_ctx F :=
  let s1 :=
    match s.forceq with
    | [] => s
    | front :: rest => if tok = front then { s with forceq := rest } else s
  push_tok s1 tok

/-- The function `smpl_rbudget_reset`. -/
def smpl_rbudget_reset (s : smpl_rbudget_ctx F) : smpl_rbudget_ctx F :=
  { s with window := [], forceq := [], used := 0, inside := false }

/-- The function `smpl_rbudget_clone`: the context of the new sampler. -/
def smpl_rbudget_clone (s : smpl_rbudget_ctx F) : smpl_rbudget_ctx F :=
  { s with window := [], forceq := [], used := 0, inside := false }

/-! ## Candidate editor -/

/-- The search loop of `clamp_to_token` and `bias_token`, started at index `i`:
the index of the first entry with id `want`, or `-1`. -/
def find_id (want : Int) : List (llama_token_data F) → Nat → Int
  | [], _ => -1
  | d :: ds, i => if d.id = want then (i : Int) else find_id want ds (i + 1)

/-- The assignment `data[size - 1].id = want`. -/
def set_last_id (want : Int) : List (llama_token_data F) → List (llama_token_data F)
  | [] => []
  | [d] => [{ d with id := want }]
  | d :: e :: ds => d :: set_last_id want (e :: ds)

/-- The second loop of `clamp_to_token`, started at index `i`. -/
def set_logits [FloatOps F] (idx : Int) :
    List (llama_token_data F) → Nat → List (llama_token_data F)
  | [], _ => []
  | d :: ds, i =>
    { d with logit := if (i : Int) = idx then FloatOps.big else FloatOps.negInf }
      :: set_logits idx ds (i + 1)

/-- The function `clamp_to_token`. -/
def clamp_to_token [FloatOps F] (cur : llama_token_data_array F) (want : Int) :
    llama_token_data_array F :=
  let idx0 := find_id want cur.data 0
  let overwrite := idx0 == -1 && decide (cur.data.length > 0)
  let data1 := if overwrite then set_last_id want cur.data else cur.data
  let idx : Int := if overwrite then (cur.data.length : Int) - 1 else idx0
  { data := set_logits idx data1 0, selected := idx, sorted := false }

/-- The loop of `bias_token`: add `bias` to the first entry with id `want`, then stop. -/
def bias_loop [FloatOps F] (want : Int) (bias : F) :
    List (llama_token_data F) → List (llama_token_data F)
  | [] => []
  | d :: ds =>
    if d.id = want then { d with logit := FloatOps.add d.logit bias } :: ds
    else d :: bias_loop want bias ds

/-- The function `bias_token`. -/
def bias_token [FloatOps F] (cur : llama_token_data_array F) (want : Int) (bias : F) :
    llama_token_data_array F :=
  { cur with data := bias_loop want bias cur.data }

/-! ## Apply and construction -/

/-- The function `smpl_rbudget_apply`: the new context and the new candidate set. -/
def smpl_rbudget_apply [FloatOps F] (s : smpl_rbudget_ctx F) (cur : llama_token_data_array F) :
    smpl_rbudget_ctx F × llama_token_data_array F :=
  if !s.inside then (s, cur)
  else if s.budget == 0 then (s, cur)
  else if decide (s.used < s.budget) then (s, cur)
  else if s.hard then
    let s1 := if s.forceq.isEmpty then begin_force_close s else s
    match s1.forceq with
    | front :: _ => (s1, clamp_to_token cur front)
    | [] => (s1, cur)
  else
    match s.close with
    | front :: _ => (s, bias_token cur front s.close_bias)
    | [] => (s, cur)

/-- The constructor `llama_sampler_init_reasoning_budget`, given the two token
sequences that its `tok` lambda produced for the open and the close tag. -/
def llama_sampler_init_reasoning_budget (budget_tokens : Nat) (open_seq close_seq : List Int)
    (close_bias : F) (hard_enforce : Bool) : smpl_rbudget_ctx F :=
  { «open» := open_seq, close := close_seq, window := [], forceq := [],
    budget := budget_tokens, used := 0, inside := false, hard := hard_enforce,
    close_bias := close_bias,
    max_win := max (max (open_seq.length : Int) (close_seq.length : Int)) 8 }

/-! ## Host calls -/

/-- One call of the host on a sampler instance. -/
inductive Call (F : Type) where
  | accept (tok : Int) : Call F
  | apply (cur : llama_token_data_array F) : Call F
  | reset : Call F

/-- The context after one host call. -/
def step [FloatOps F] (s : smpl_rbudget_ctx F) : Call F → smpl_rbudget_ctx F
  | .accept tok => smpl_rbudget_accept s tok
  | .apply cur => (smpl_rbudget_apply s cur).1
  | .reset => smpl_rbudget_reset s

/-- The context after a sequence of host calls. -/
def run [FloatOps F] (s : smpl_rbudget_ctx F) (calls : List (Call F)) : smpl_rbudget_ctx F :=
  calls.foldl step s

/-- The context after accepting a stream of tokens. -/
def accept_all (s : smpl_rbudget_ctx F) (toks : List Int) : smpl_rbudget_ctx F :=
  toks.foldl smpl_rbudget_accept s

/-- The id of the entry that the candidate set marks as selected, if any
(what the host reads after `apply`). -/
def selected_id (cur : llama_token_data_array F) : Option Int :=
  if 0 ≤ cur.selected then (cur.data.get? cur.selected.toNat).map (fun d => d.id) else none

/-- One round of the host: `apply` on `cur`, then `accept` of the selected token
(no accept when nothing is selected). -/
def host_round [FloatOps F] (s : smpl_rbudget_ctx F) (cur : llama_token_data_array F) :
    smpl_rbudget_ctx F :=
  let r := smpl_rbudget_apply s cur
  match selected_id r.2 with
  | some tok => smpl_rbudget_accept r.1 tok
  | none => r.1

/-- The context after `n` host rounds on the candidate sets `curs 0`, `curs 1`, ... -/
def host_rounds [FloatOps F] (s : smpl_rbudget_ctx F) (curs : Nat → llama_token_data_array F) :
    Nat → smpl_rbudget_ctx F
  | 0 => s
  | n + 1 => host_round (host_rounds s curs n) (curs n)

/-! ## Auxiliary and specification-side definitions -/

/-- The index that clamping to `want` ends up selecting, in the words of the
specification: the first index whose id is `want`, or the last index if no entry has
that id. -/
def clamp_index (data : List (llama_token_data F)) (want : Int) : Nat :=
  if data.any (fun d => decide (d.id = want)) then data.findIdx (fun d => decide (d.id = want))
  else data.length - 1

/-- Two contexts have the same configuration (tags, budget, mode, bias, capacity). -/
def same_config (s r : smpl_rbudget_ctx F) : Prop :=
  r.open = s.open ∧ r.close = s.close ∧ r.budget = s.budget ∧ r.hard = s.hard ∧
    r.close_bias = s.close_bias ∧ r.max_win = s.max_win

/-- The match test of `push_tok`: the pattern is non-empty and the window ends
with it. -/
def tag_match (w pat : List Int) : Bool := !pat.isEmpty && ends_with w pat

/-- The force queue after the drain step of `accept`: the front is removed when the
queue is non-empty and its front is the accepted token. -/
def drain (q : List Int) (tok : Int) : List Int :=
  match q with
  | [] => []
  | front :: rest => if tok = front then rest else front :: rest

/-- The statement of hard-mode closure for a start state `s` and the candidate sets
`curs 0`, `curs 1`, ... of the successive host rounds: there is a round count `j`
between 1 and the length of the close sequence such that in every round `i < j` the
sampler is still inside the span and `apply` selects the close token number `i`, and
after `j` rounds the span has been left with `used = 0` and an empty force queue. -/
def hard_closure [FloatOps F] (s : smpl_rbudget_ctx F)
    (curs : Nat → llama_token_data_array F) : Prop :=
  ∃ j, 1 ≤ j ∧ j ≤ s.close.length ∧
    (∀ i, i < j →
      (host_rounds s curs i).inside = true ∧
      selected_id (smpl_rbudget_apply (host_rounds s curs i) (curs i)).2 = s.close[i]?) ∧
    (host_rounds s curs j).inside = false ∧ (host_rounds s curs j).used = 0 ∧
    (host_rounds s curs j).forceq = []

/-- The number of `accept` calls in a sequence of host calls. -/
def n_accepts : List (Call F) → Nat
  | [] => 0
  | .accept _ :: cs => n_accepts cs + 1
  | .apply _ :: cs => n_accepts cs
  | .reset :: cs => n_accepts cs

/-- The invariant of the force queue after `n` accepted tokens. -/
def forceq_inv (s : smpl_rbudget_ctx F) (n : Nat) : Prop :=
  s.forceq <:+ s.close ∧
  (s.forceq ≠ [] → s.inside = true ∧ 0 < s.budget ∧ s.hard = true) ∧
  (n < 2 ^ 32 → s.used ≤ n ∧ (s.forceq ≠ [] → s.budget ≤ s.used))

/-! ## Sample inputs -/

/-- A candidate with the given id and an integer score. -/
def cand (id : Int) (z : Int) : llama_token_data ZScore :=
  { id := id, logit := ZScore.fin z, p := ZScore.fin 0 }

/-- Three candidates (tokens 1, 2, 3), none selected, flagged sorted. -/
def cur3 : llama_token_data_array ZScore :=
  { data := [cand 1 3, cand 2 2, cand 3 1], selected := -1, sorted := true }

/-- Two candidates (tokens 1 and 9), none selected, flagged sorted. -/
def cur9 : llama_token_data_array ZScore :=
  { data := [cand 1 3, cand 9 0], selected := -1, sorted := true }

/-- Scenario A of the specification: open = [5], close = [9], budget 2, hard mode. -/
def ctxA : smpl_rbudget_ctx ZScore :=
  llama_sampler_init_reasoning_budget 2 [5] [9] (ZScore.fin 0) true

/-- Scenario A after the stream 5, 1, 2: inside the span with the budget used up. -/
def ctxA_exhausted : smpl_rbudget_ctx ZScore := accept_all ctxA [5, 1, 2]

/-- Scenario B of the specification: soft mode, close = [9], bias 5, budget 1,
inside the span with one token used. -/
def ctxB : smpl_rbudget_ctx ZScore :=
  { llama_sampler_init_reasoning_budget 1 [5] [9] (ZScore.fin 5) false with
    window := [5, 1], used := 1, inside := true }

/-- A context inside a span whose counter holds the largest `uint32_t` value. -/
def ctx_max_used : smpl_rbudget_ctx ZScore :=
  { llama_sampler_init_reasoning_budget 0 [5] [9] (ZScore.fin 0) true with
    window := [5, 1], used := 4294967295, inside := true }

/-- Scenario A after the whole stream 5, 1, 2, 9: the span has been left. -/
def ctxA_exited : smpl_rbudget_ctx ZScore := run ctxA [.accept 5, .accept 1, .accept 2, .accept 9]

/-- A sampler whose open sequence is 5, 5 (close 9, budget 2, hard mode). -/
def ctx55 : smpl_rbudget_ctx ZScore :=
  llama_sampler_init_reasoning_budget 2 [5, 5] [9] (ZScore.fin 0) true

/-- A context in hard mode (budget 1, close sequence 9, 10) inside a span whose counter
holds the largest `uint32_t` value, with an empty force queue. -/
def ctx_hard_max_used : smpl_rbudget_ctx ZScore :=
  { llama_sampler_init_reasoning_budget 1 [5] [9, 10] (ZScore.fin 0) true with
    window := [5, 1], used := 4294967295, inside := true }

/-- A sampler in hard mode with the largest budget, open = 5 and close = 9, 10. -/
def ctx_big_budget : smpl_rbudget_ctx ZScore :=
  llama_sampler_init_reasoning_budget 4294967295 [5] [9, 10] (ZScore.fin 0) true

/-- A run of an honest host on `ctx_big_budget`: the open token, then `n` tokens inside
the span, then `apply` (which clamps to the first close token 9 once the budget is used
up) and the accept of that token. -/
def wrap_calls (n : Nat) : List (Call ZScore) :=
  [.accept 5] ++ List.replicate n (.accept 1) ++ [.apply cur9, .accept 9]

/-- An empty candidate set whose selection field holds a stale index. -/
def cur_empty : llama_token_data_array ZScore :=
  { data := [], selected := 3, sorted := true }

/-- A sampler with an empty close sequence (open = 5, budget 1, hard mode), after the
open token and two more tokens: inside the span with the budget used up. -/
def ctx_no_close : smpl_rbudget_ctx ZScore :=
  run (llama_sampler_init_reasoning_budget 1 [5] [] (ZScore.fin 0) true)
    [.accept 5, .accept 1, .accept 2]

/-- The tokens accepted so far, after one more host call: `accept` appends its token,
`reset` forgets everything, `apply` changes nothing. -/
def history_step (h : List Int) : Call F → List Int
  | .accept tok => h ++ [tok]
  | .apply _ => h
  | .reset => []

/-- The tokens accepted since construction or the last reset, in acceptance order. -/
def history (calls : List (Call F)) : List Int :=
  calls.foldl history_step []

/-- The window capacity that the constructor sets, as a natural number. -/
def capacity (open_seq close_seq : List Int) : Nat :=
  max (max open_seq.length close_seq.length) 8

/-- State of the reference machine: the whole accepted history instead of the bounded
window, with the same `inside` flag and the same 32-bit counter `used`. -/
structure ref_state where
  hist : List Int
  inside : Bool
  used : Nat
deriving DecidableEq, Repr

/-- One accept of the reference machine: outside, it enters when the open sequence is
non-empty and the history ends with it; inside, it leaves when the close sequence is
non-empty and the history ends with it, and counts the token otherwise. -/
def ref_accept (open_seq close_seq : List Int) (r : ref_state) (tok : Int) : ref_state :=
  let h := r.hist ++ [tok]
  if r.inside = false then
    if open_seq ≠ [] ∧ open_seq <:+ h then { hist := h, inside := true, used := 0 }
    else { r with hist := h }
  else
    if close_seq ≠ [] ∧ close_seq <:+ h then { hist := h, inside := false, used := 0 }
    else { r with hist := h, used := (r.used + 1) % 2 ^ 32 }

/-- One host call on the reference machine (`apply` does not touch it). -/
def ref_step (open_seq close_seq : List Int) (r : ref_state) : Call F → ref_state
  | .accept tok => ref_accept open_seq close_seq r tok
  | .apply _ => r
  | .reset => { hist := [], inside := false, used := 0 }

/-- The reference machine after a sequence of host calls, from its initial state. -/
def ref_run (open_seq close_seq : List Int) (calls : List (Call F)) : ref_state :=
  calls.foldl (ref_step open_seq close_seq) { hist := [], inside := false, used := 0 }

/-- The sampler `s` and the reference state `r` agree: the window is the last `c`
tokens of the history (all of it when shorter), and `inside` and `used` are equal. -/
def refines (c : Nat) (s : smpl_rbudget_ctx F) (r : ref_state) : Prop :=
  s.window = r.hist.drop (r.hist.length - c) ∧ s.inside = r.inside ∧ s.used = r.used

/-- The token that `apply` clamps to in state `s`, if it clamps at all: the control flow
of `smpl_rbudget_apply` without the candidate set. -/
def forced_token (s : smpl_rbudget_ctx F) : Option Int :=
  if !s.inside then none
  else if s.budget == 0 then none
  else if decide (s.used < s.budget) then none
  else if s.hard then (if s.forceq.isEmpty then begin_force_close s else s).forceq.head?
  else none

/-- One round of a host that may pick any token: `apply` on `cur`, then `accept` of
`tok`. -/
def round_with [FloatOps F] (s : smpl_rbudget_ctx F)
    (r : llama_token_data_array F × Int) : smpl_rbudget_ctx F :=
  smpl_rbudget_accept (smpl_rbudget_apply s r.1).1 r.2

/-- The context after a sequence of rounds, each given by its candidate set and the
token the host accepts. -/
def rounds_run [FloatOps F] (s : smpl_rbudget_ctx F)
    (rounds : List (llama_token_data_array F × Int)) : smpl_rbudget_ctx F :=
  rounds.foldl round_with s

/-- The rounds are those of an honest host: every candidate set is non-empty, and
whenever `apply` clamps, the accepted token is the one it clamped to. -/
def honest_run [FloatOps F] :
    smpl_rbudget_ctx F → List (llama_token_data_array F × Int) → Bool
  | _, [] => true
  | s, r :: rest =>
    !r.1.data.isEmpty && (forced_token s == none || forced_token s == some r.2)
      && honest_run (round_with s r) rest

/-- The invariant of an honest hard-mode run whose counter cannot wrap: outside a span
`used` is 0 and the force queue is empty; inside, either the budget is not used up and
the queue is empty, or `j < k` forced close tokens have been accepted, `used` is
`budget + j`, the queue holds the remaining close tokens and the window ends with the
first `j` close tokens. -/
def honest_inv (s : smpl_rbudget_ctx F) : Prop :=
  (s.inside = false → s.used = 0 ∧ s.forceq = []) ∧
  (s.inside = true →
    (s.used < s.budget ∧ s.forceq = []) ∨
    (∃ j, j < s.close.length ∧ s.used = s.budget + j ∧
      (if s.forceq = [] then s.close else s.forceq) = s.close.drop j ∧
      s.close.take j <:+ s.window))

/-- The rounds of Scenario A with an honest host: tokens 5, 1, 2 and then the forced
close token 9, each chosen from the candidate set `cur9`. -/
def roundsA : List (llama_token_data_array ZScore × Int) :=
  [(cur9, 5), (cur9, 1), (cur9, 2), (cur9, 9)]

/-- The scores of the entries are in non-increasing order: no entry has a score below
the score of the entry after it (what the `sorted` flag of the candidate set promises). -/
def scores_sorted [FloatOps F] : List (llama_token_data F) → Bool
  | [] => true
  | [_] => true
  | a :: b :: rest => !(FloatOps.lt a.logit b.logit) && scores_sorted (b :: rest)

/-- The call `out.resize(n)` on a vector of tokens: cut to `n` entries, or padded with
value-initialised tokens (0) up to `n` entries. -/
def resize (out : List Int) (n : Nat) : List Int :=
  out.take n ++ List.replicate (n - out.length) 0

/-- The buffer after the tokenizer has stored the tokens `written` from its start: it
keeps its size, so tokens beyond the end of the buffer are not stored. -/
def write_buffer (buf written : List Int) : List Int :=
  written.take buf.length ++ buf.drop written.length

/-- The smallest `int32_t` value. -/
def INT32_MIN : Int := -2147483648

/-- The type `int32_t`: the integers from `-2^31` to `2^31 - 1`. -/
def int32_t : Type := { r : Int // -2147483648 ≤ r ∧ r ≤ 2147483647 }

/-- The lambda `tok` of the constructor. The tokenizer `llama_tokenize` is a parameter:
`tokenize text n_max` is its `int32_t` return value together with the tokens it stores
into a buffer of `n_max` entries. The tag is `none` for a null pointer and otherwise the
text before the terminating NUL. The result is `none` where the source has undefined
behaviour: the negations `-r1` and `-r2` overflow when the count is `INT32_MIN`. -/
def tok (tokenize : List Char → Nat → int32_t × List Int) (str : Option (List Char)) :
    Option (List Int) :=
  match str with
  | none => some []
  | some [] => some []
  | some (ch :: chs) =>
    let r1 := (tokenize (ch :: chs) 0).1.val
    if r1 = INT32_MIN then none
    else
      let need := if r1 ≥ 0 then r1 else -r1
      if need ≤ 0 then some []
      else
        let out := resize [] need.toNat
        let call := tokenize (ch :: chs) need.toNat
        let out := write_buffer out call.2
        let r2 := call.1.val
        if r2 ≠ need then
          if r2 = INT32_MIN then none
          else some (resize out (if r2 ≥ 0 then r2 else -r2).toNat)
        else some out

/-- The constructor `llama_sampler_init_reasoning_budget` on tag texts: both tags go
through `tok`; there is no result where `tok` has none. -/
def llama_sampler_init_from_tags (tokenize : List Char → Nat → int32_t × List Int)
    (budget_tokens : Nat) (open_tag close_tag : Option (List Char)) (close_bias : F)
    (hard_enforce : Bool) : Option (smpl_rbudget_ctx F) :=
  match tok tokenize open_tag, tok tokenize close_tag with
  | some open_seq, some close_seq =>
    some (llama_sampler_init_reasoning_budget budget_tokens open_seq close_seq close_bias
      hard_enforce)
  | _, _ => none

/-- A tokenizer that asks for one token on the sizing pass and, on the fill pass, stores
token 7 and reports that three tokens would have been needed. -/
def tokenize_short : List Char → Nat → int32_t × List Int :=
  fun _ n_max => if n_max = 0 then (⟨1, by decide⟩, []) else (⟨-3, by decide⟩, [7])

/-- A tokenizer that asks for three tokens on the sizing pass and, on the fill pass,
stores 7, 8, 9 but returns 2. -/
def tokenize_long : List Char → Nat → int32_t × List Int :=
  fun _ n_max => if n_max = 0 then (⟨-3, by decide⟩, []) else (⟨2, by decide⟩, [7, 8, 9])

/-- A tokenizer that asks for one token on the sizing pass and returns `INT32_MIN` on
the fill pass, storing nothing. -/
def tokenize_overflow : List Char → Nat → int32_t × List Int :=
  fun _ n_max =>
    if n_max = 0 then (⟨1, by decide⟩, []) else (⟨-2147483648, by decide⟩, [])

/-- The first result of the tokenizer in `tok`, from the sizing pass. -/
def sizing_count (tokenize : List Char → Nat → int32_t × List Int) (text : List Char) : Int :=
  (tokenize text 0).1.val

/-- The size that the sizing pass of `tok` asks for: the absolute value of the first
result of the tokenizer. -/
def sizing_need (tokenize : List Char → Nat → int32_t × List Int) (text : List Char) : Nat :=
  (sizing_count tokenize text).natAbs

/-- The result of the fill pass of `tok`. -/
def fill_count (tokenize : List Char → Nat → int32_t × List Int) (text : List Char) : Int :=
  (tokenize text (sizing_need tokenize text)).1.val

/-- The buffer of `sizing_need` entries after the fill pass of `tok`. -/
def filled_buffer (tokenize : List Char → Nat → int32_t × List Int) (text : List Char) :
    List Int :=
  write_buffer (List.replicate (sizing_need tokenize text) 0)
    (tokenize text (sizing_need tokenize text)).2

/-! ## Lemmas on the candidate editor -/

theorem find_id_eq (want : Int) (ds : List (llama_token_data F)) (i : Nat) :
    find_id want ds i =
      if ds.any (fun d => decide (d.id = want)) then
        ((i + ds.findIdx (fun d => decide (d.id = want)) : Nat) : Int)
      else -1 := by
  induction ds generalizing i with
  | nil => simp [find_id]
  | cons d ds ih =>
    by_cases h : d.id = want
    · simp [find_id, h, List.findIdx_cons]
    · simp [find_id, h, List.findIdx_cons, ih]
      split
      · omega
      · rfl

theorem set_logits_length [FloatOps F] (idx : Int) (ds : List (llama_token_data F)) (i : Nat) :
    (set_logits idx ds i).length = ds.length := by
  induction ds generalizing i with
  | nil => rfl
  | cons d ds ih => simp [set_logits, ih]

theorem set_logits_getElem? [FloatOps F] (idx : Int) (ds : List (llama_token_data F))
    (i j : Nat) :
    (set_logits idx ds i)[j]? =
      (ds[j]?).map (fun d =>
        { d with logit := if ((i + j : Nat) : Int) = idx then FloatOps.big else FloatOps.negInf }) := by
  induction ds generalizing i j with
  | nil => simp [set_logits]
  | cons d ds ih =>
    cases j with
    | zero => simp [set_logits]
    | succ j =>
      simp only [set_logits, List.getElem?_cons_succ, ih]
      have : i + 1 + j = i + (j + 1) := by omega
      rw [this]

theorem set_last_id_length (want : Int) (ds : List (llama_token_data F)) :
    (set_last_id want ds).length = ds.length := by
  induction ds with
  | nil => rfl
  | cons d ds ih =>
    cases ds with
    | nil => rfl
    | cons e ds => simp only [set_last_id, List.length_cons] at ih ⊢; omega

theorem set_last_id_getElem? (want : Int) (ds : List (llama_token_data F)) (j : Nat) :
    (set_last_id want ds)[j]? =
      (ds[j]?).map (fun d => if j + 1 = ds.length then { d with id := want } else d) := by
  induction ds generalizing j with
  | nil => simp [set_last_id]
  | cons d ds ih =>
    cases ds with
    | nil =>
      cases j with
      | zero => simp [set_last_id]
      | succ j => simp [set_last_id]
    | cons e ds =>
      cases j with
      | zero => simp [set_last_id]
      | succ j =>
        simp only [set_last_id, List.getElem?_cons_succ, List.length_cons] at ih ⊢
        rw [ih]
        congr 1
        funext x
        simp

theorem clamp_index_lt (data : List (llama_token_data F)) (want : Int) (hne : data ≠ []) :
    clamp_index data want < data.length := by
  unfold clamp_index
  have hpos : 0 < data.length := List.length_pos.mpr hne
  split
  · rename_i h
    exact List.findIdx_lt_length_of_exists (by simpa using h)
  · omega

theorem clamp_to_token_selected [FloatOps F] (cur : llama_token_data_array F) (want : Int)
    (hne : cur.data ≠ []) :
    (clamp_to_token cur want).selected = (clamp_index cur.data want : Int) := by
  have hpos : 0 < cur.data.length := List.length_pos.mpr hne
  simp only [clamp_to_token, clamp_index, find_id_eq]
  by_cases h : cur.data.any (fun d => decide (d.id = want)) = true
  · simp only [h, if_true]
    have : ¬ (((0 + cur.data.findIdx (fun d => decide (d.id = want)) : Nat) : Int) = -1) := by
      omega
    simp [this]
  · simp only [h]
    simp [hpos]

theorem clamp_to_token_getElem? [FloatOps F] (cur : llama_token_data_array F) (want : Int)
    (hne : cur.data ≠ []) (j : Nat) (d : llama_token_data F) (hd : cur.data[j]? = some d) :
    (clamp_to_token cur want).data[j]? =
      some { id := if j = clamp_index cur.data want then want else d.id,
             logit := if j = clamp_index cur.data want then FloatOps.big else FloatOps.negInf,
             p := d.p } := by
  have hpos : 0 < cur.data.length := List.length_pos.mpr hne
  have hsel := clamp_to_token_selected cur want hne
  have hj : j < cur.data.length := by
    rcases Nat.lt_or_ge j cur.data.length with h | h
    · exact h
    · rw [List.getElem?_eq_none h] at hd; cases hd
  have hdj : cur.data[j] = d := by
    rw [List.getElem?_eq_getElem hj] at hd; exact Option.some.inj hd
  have hdata : (clamp_to_token cur want).data =
      set_logits (clamp_to_token cur want).selected
        (if (find_id want cur.data 0 == -1 && decide (cur.data.length > 0)) = true
          then set_last_id want cur.data else cur.data) 0 := rfl
  rw [hdata, hsel, set_logits_getElem?]
  have hcast : ∀ k : Nat, (((0 + j : Nat) : Int) = (k : Int)) ↔ j = k := by
    intro k; constructor <;> intro h <;> omega
  simp only [hcast]
  by_cases h : cur.data.any (fun d => decide (d.id = want)) = true
  · -- the token is present: no id is overwritten
    have hfind : (find_id want cur.data 0 == -1 && decide (cur.data.length > 0)) = false := by
      rw [find_id_eq]; simp only [h, if_true]
      have : ¬ (((0 + cur.data.findIdx (fun d => decide (d.id = want)) : Nat) : Int) = -1) := by
        omega
      simp [this]
    simp only [hfind, Bool.false_eq_true, if_false, hd, Option.map_some']
    by_cases hji : j = clamp_index cur.data want
    · have hidx : clamp_index cur.data want
          = cur.data.findIdx (fun d => decide (d.id = want)) := by
        simp [clamp_index, h]
      have hlt : cur.data.findIdx (fun d => decide (d.id = want)) < cur.data.length := by
        rw [← hidx, ← hji]; exact hj
      have := List.findIdx_getElem (w := hlt)
      have hid : d.id = want := by
        rw [← hdj]; subst hji; simp only [hidx]; simpa using this
      simp only [if_pos hji, hid]
    · simp only [if_neg hji]
  · -- the token is absent: the last id is overwritten
    have hfind : (find_id want cur.data 0 == -1 && decide (cur.data.length > 0)) = true := by
      rw [find_id_eq]; simp [h, hpos]
    have hidx : clamp_index cur.data want = cur.data.length - 1 := by
      simp [clamp_index, h]
    simp only [hfind, if_true, set_last_id_getElem?, hd, Option.map_some', hidx]
    by_cases hji : j = cur.data.length - 1
    · have : j + 1 = cur.data.length := by omega
      simp only [if_pos hji, if_pos this]
    · have : ¬ (j + 1 = cur.data.length) := by omega
      simp only [if_neg hji, if_neg this]

theorem clamp_index_first (data : List (llama_token_data F)) (want : Int) (m : Nat)
    (e : llama_token_data F) (hm : m < clamp_index data want) (he : data[m]? = some e) :
    e.id ≠ want := by
  intro hid
  by_cases h : data.any (fun d => decide (d.id = want)) = true
  · have hidx : clamp_index data want = data.findIdx (fun d => decide (d.id = want)) := by
      simp [clamp_index, h]
    rw [hidx] at hm
    have hml : m < data.length := by
      rcases Nat.lt_or_ge m data.length with h' | h'
      · exact h'
      · rw [List.getElem?_eq_none h'] at he; cases he
    have := List.not_of_lt_findIdx hm
    rw [List.getElem?_eq_getElem hml] at he
    have he2 : data[m] = e := Option.some.inj he
    rw [he2] at this
    simp [hid] at this
  · have hmem : e ∈ data := List.getElem?_mem he
    exact h (List.any_eq_true.mpr ⟨e, hmem, by simp [hid]⟩)

theorem clamp_index_hit_or_last (data : List (llama_token_data F)) (want : Int)
    (hne : data ≠ []) :
    (∃ e, data[clamp_index data want]? = some e ∧ e.id = want) ∨
      ((∀ e ∈ data, e.id ≠ want) ∧ clamp_index data want + 1 = data.length) := by
  have hlt := clamp_index_lt data want hne
  by_cases h : data.any (fun d => decide (d.id = want)) = true
  · left
    have hidx : clamp_index data want = data.findIdx (fun d => decide (d.id = want)) := by
      simp [clamp_index, h]
    refine ⟨data[clamp_index data want], List.getElem?_eq_getElem hlt, ?_⟩
    have hlt2 : data.findIdx (fun d => decide (d.id = want)) < data.length := by
      rw [← hidx]; exact hlt
    have := List.findIdx_getElem (w := hlt2)
    simp only [hidx]
    simpa using this
  · right
    have hpos : 0 < data.length := List.length_pos.mpr hne
    refine ⟨?_, ?_⟩
    · intro e he hid
      exact h (List.any_eq_true.mpr ⟨e, he, by simp [hid]⟩)
    · simp only [clamp_index, h]
      simp
      omega

theorem clamp_index_unique (data : List (llama_token_data F)) (want : Int) (i : Nat)
    (e : llama_token_data F) (he : data[i]? = some e) (hid : e.id = want)
    (hfirst : ∀ m x, m < i → data[m]? = some x → x.id ≠ want) :
    clamp_index data want = i := by
  have hne : data ≠ [] := by
    intro h; rw [h] at he; simp at he
  have hlt := clamp_index_lt data want hne
  rcases Nat.lt_trichotomy (clamp_index data want) i with h | h | h
  · rcases clamp_index_hit_or_last data want hne with ⟨x, hx, hxid⟩ | ⟨hnone, _⟩
    · exact absurd hxid (hfirst _ x h hx)
    · exact absurd hid (hnone e (List.getElem?_mem he))
  · exact h
  · exact absurd hid (clamp_index_first data want i e h he)

theorem clamp_selected_id [FloatOps F] (cur : llama_token_data_array F) (want : Int)
    (hne : cur.data ≠ []) : selected_id (clamp_to_token cur want) = some want := by
  have hlt := clamp_index_lt cur.data want hne
  have hsel := clamp_to_token_selected cur want hne
  have hi := clamp_to_token_getElem? cur want hne (clamp_index cur.data want) _
    (List.getElem?_eq_getElem hlt)
  have h0 : (0 : Int) ≤ (clamp_index cur.data want : Int) := Int.ofNat_nonneg _
  simp only [selected_id, hsel, h0, if_true, Int.toNat_ofNat, List.get?_eq_getElem?, hi,
    Option.map_some']

theorem clamp_to_token_length [FloatOps F] (cur : llama_token_data_array F) (want : Int) :
    (clamp_to_token cur want).data.length = cur.data.length := by
  simp only [clamp_to_token, set_logits_length]
  split
  · exact set_last_id_length want cur.data
  · rfl

theorem bias_loop_length [FloatOps F] (want : Int) (bias : F) (ds : List (llama_token_data F)) :
    (bias_loop want bias ds).length = ds.length := by
  induction ds with
  | nil => rfl
  | cons d ds ih =>
    by_cases h : d.id = want <;> simp [bias_loop, h, ih]

theorem bias_loop_absent [FloatOps F] (want : Int) (bias : F) (ds : List (llama_token_data F))
    (h : ∀ d ∈ ds, d.id ≠ want) : bias_loop want bias ds = ds := by
  induction ds with
  | nil => rfl
  | cons d ds ih =>
    have hd : d.id ≠ want := h d (List.mem_cons_self d ds)
    have ht : ∀ e ∈ ds, e.id ≠ want := fun e he => h e (List.mem_cons_of_mem d he)
    simp [bias_loop, hd, ih ht]

theorem bias_loop_first [FloatOps F] (want : Int) (bias : F) (ds : List (llama_token_data F))
    (j : Nat) (d : llama_token_data F) (hd : ds[j]? = some d) (hid : d.id = want)
    (hfirst : ∀ m e, m < j → ds[m]? = some e → e.id ≠ want) :
    (bias_loop want bias ds)[j]? = some { d with logit := FloatOps.add d.logit bias } := by
  induction ds generalizing j with
  | nil => simp at hd
  | cons x ds ih =>
    cases j with
    | zero =>
      simp only [List.getElem?_cons_zero, Option.some.injEq] at hd
      subst hd
      simp [bias_loop, hid]
    | succ j =>
      have hx : x.id ≠ want := hfirst 0 x (Nat.succ_pos j) (by simp)
      simp only [List.getElem?_cons_succ] at hd
      simp only [bias_loop, hx, if_false, List.getElem?_cons_succ]
      exact ih j hd (fun m e hm he => hfirst (m + 1) e (by omega) (by simpa using he))

theorem bias_loop_other [FloatOps F] (want : Int) (bias : F) (ds : List (llama_token_data F))
    (j : Nat) (d : llama_token_data F) (hd : ds[j]? = some d)
    (h : d.id ≠ want ∨ ∃ m e, m < j ∧ ds[m]? = some e ∧ e.id = want) :
    (bias_loop want bias ds)[j]? = some d := by
  induction ds generalizing j with
  | nil => simp at hd
  | cons x ds ih =>
    by_cases hx : x.id = want
    · cases j with
      | zero =>
        simp only [List.getElem?_cons_zero, Option.some.injEq] at hd
        subst hd
        rcases h with h | ⟨m, e, hm, _, _⟩
        · exact absurd hx h
        · omega
      | succ j => simpa [bias_loop, hx] using hd
    · cases j with
      | zero => simpa [bias_loop, hx] using hd
      | succ j =>
        simp only [List.getElem?_cons_succ] at hd
        simp only [bias_loop, hx, if_false, List.getElem?_cons_succ]
        refine ih j hd ?_
        rcases h with h | ⟨m, e, hm, he, hid⟩
        · exact Or.inl h
        · cases m with
          | zero =>
            simp only [List.getElem?_cons_zero, Option.some.injEq] at he
            subst he
            exact absurd hid hx
          | succ m =>
            exact Or.inr ⟨m, e, by omega, by simpa using he, hid⟩

/-! ## Lemmas on the tag matcher -/

theorem ends_with_loop_iff (wr pr : List Int) : ends_with_loop wr pr = true ↔ pr <+: wr := by
  induction pr generalizing wr with
  | nil => simp [ends_with_loop]
  | cons y pr ih =>
    cases wr with
    | nil => simp [ends_with_loop]
    | cons x wr =>
      by_cases hxy : x = y
      · subst hxy
        simp [ends_with_loop, ih, List.cons_prefix_cons]
      · have hyx : ¬ y = x := fun h => hxy h.symm
        simp [ends_with_loop, hxy, hyx, List.cons_prefix_cons]

theorem ends_with_iff (w pat : List Int) : ends_with w pat = true ↔ pat <:+ w := by
  unfold ends_with
  split
  · rename_i h
    constructor
    · intro hf; cases hf
    · intro hs
      have := hs.length_le
      omega
  · rw [ends_with_loop_iff, List.reverse_prefix]

theorem ends_with_eq_false_iff (w pat : List Int) : ends_with w pat = false ↔ ¬ pat <:+ w := by
  rw [← ends_with_iff]; simp

/-! ## Frame lemmas: the configuration never changes -/

theorem same_config_refl (s : smpl_rbudget_ctx F) : same_config s s :=
  ⟨rfl, rfl, rfl, rfl, rfl, rfl⟩

theorem same_config_trans {s r u : smpl_rbudget_ctx F} (h1 : same_config s r)
    (h2 : same_config r u) : same_config s u := by
  unfold same_config at h1 h2 ⊢
  refine ⟨h2.1.trans h1.1, h2.2.1.trans h1.2.1, h2.2.2.1.trans h1.2.2.1, ?_, ?_, ?_⟩
  · exact h2.2.2.2.1.trans h1.2.2.2.1
  · exact h2.2.2.2.2.1.trans h1.2.2.2.2.1
  · exact h2.2.2.2.2.2.trans h1.2.2.2.2.2

theorem push_tok_enter (s : smpl_rbudget_ctx F) (t : Int) (hin : s.inside = false)
    (hm : tag_match (push_window s.window s.max_win t) s.open = true) :
    push_tok s t = { s with window := push_window s.window s.max_win t,
                            inside := true, used := 0, forceq := [] } := by
  obtain ⟨o, c, w, q, b, u, i, h, cb, mw⟩ := s
  simp only at hin hm
  subst hin
  simp only [tag_match] at hm
  simp only [push_tok, hm, Bool.not_false, if_true]

theorem push_tok_outside (s : smpl_rbudget_ctx F) (t : Int) (hin : s.inside = false)
    (hm : tag_match (push_window s.window s.max_win t) s.open = false) :
    push_tok s t = { s with window := push_window s.window s.max_win t } := by
  obtain ⟨o, c, w, q, b, u, i, h, cb, mw⟩ := s
  simp only at hin hm
  subst hin
  simp only [tag_match] at hm
  simp only [push_tok, hm, Bool.not_false, if_true, Bool.false_eq_true, if_false]

theorem push_tok_exit (s : smpl_rbudget_ctx F) (t : Int) (hin : s.inside = true)
    (hm : tag_match (push_window s.window s.max_win t) s.close = true) :
    push_tok s t = { s with window := push_window s.window s.max_win t,
                            inside := false, used := 0, forceq := [] } := by
  obtain ⟨o, c, w, q, b, u, i, h, cb, mw⟩ := s
  simp only at hin hm
  subst hin
  simp only [tag_match] at hm
  simp only [push_tok, hm, Bool.not_true, Bool.false_eq_true, if_false, if_true]

theorem push_tok_inside (s : smpl_rbudget_ctx F) (t : Int) (hin : s.inside = true)
    (hm : tag_match (push_window s.window s.max_win t) s.close = false) :
    push_tok s t = { s with window := push_window s.window s.max_win t,
                            used := (s.used + 1) % 2 ^ 32 } := by
  obtain ⟨o, c, w, q, b, u, i, h, cb, mw⟩ := s
  simp only at hin hm
  subst hin
  simp only [tag_match] at hm
  simp only [push_tok, hm, Bool.not_true, Bool.false_eq_true, if_false]

theorem tag_match_iff (w pat : List Int) : tag_match w pat = true ↔ pat ≠ [] ∧ pat <:+ w := by
  cases pat with
  | nil => simp [tag_match]
  | cons x xs => simp [tag_match, ends_with_iff]

theorem tag_match_nil (w : List Int) : tag_match w [] = false := by
  simp [tag_match]

theorem push_tok_config (s : smpl_rbudget_ctx F) (t : Int) : same_config s (push_tok s t) := by
  cases hin : s.inside
  · cases hm : tag_match (push_window s.window s.max_win t) s.open
    · rw [push_tok_outside s t hin hm]; simp [same_config]
    · rw [push_tok_enter s t hin hm]; simp [same_config]
  · cases hm : tag_match (push_window s.window s.max_win t) s.close
    · rw [push_tok_inside s t hin hm]; simp [same_config]
    · rw [push_tok_exit s t hin hm]; simp [same_config]

theorem push_tok_window (s : smpl_rbudget_ctx F) (t : Int) :
    (push_tok s t).window = push_window s.window s.max_win t := by
  cases hin : s.inside
  · cases hm : tag_match (push_window s.window s.max_win t) s.open
    · rw [push_tok_outside s t hin hm]
    · rw [push_tok_enter s t hin hm]
  · cases hm : tag_match (push_window s.window s.max_win t) s.close
    · rw [push_tok_inside s t hin hm]
    · rw [push_tok_exit s t hin hm]

theorem accept_config (s : smpl_rbudget_ctx F) (t : Int) :
    same_config s (smpl_rbudget_accept s t) := by
  unfold smpl_rbudget_accept
  split
  · exact push_tok_config s t
  · split
    · exact same_config_trans (by simp [same_config]) (push_tok_config _ t)
    · exact push_tok_config s t

theorem accept_window (s : smpl_rbudget_ctx F) (t : Int) :
    (smpl_rbudget_accept s t).window = push_window s.window s.max_win t := by
  unfold smpl_rbudget_accept
  split
  · exact push_tok_window s t
  · split
    · rw [push_tok_window]
    · exact push_tok_window s t

theorem apply_config [FloatOps F] (s : smpl_rbudget_ctx F) (cur : llama_token_data_array F) :
    same_config s (smpl_rbudget_apply s cur).1 := by
  obtain ⟨o, c, w, q, b, u, i, h, cb, mw⟩ := s
  simp only [smpl_rbudget_apply, begin_force_close, same_config]
  cases i <;> cases h <;> cases q <;> cases c <;> simp <;> split_ifs <;> simp

theorem reset_config (s : smpl_rbudget_ctx F) : same_config s (smpl_rbudget_reset s) := by
  simp [same_config, smpl_rbudget_reset]

theorem step_config [FloatOps F] (s : smpl_rbudget_ctx F) (c : Call F) :
    same_config s (step s c) := by
  cases c with
  | accept tok => exact accept_config s tok
  | apply cur => exact apply_config s cur
  | reset => exact reset_config s

theorem run_config [FloatOps F] (s : smpl_rbudget_ctx F) (calls : List (Call F)) :
    same_config s (run s calls) := by
  induction calls generalizing s with
  | nil => exact same_config_refl s
  | cons c cs ih => exact same_config_trans (step_config s c) (ih (step s c))

/-! ## Lemmas on apply -/

theorem apply_of_not_exhausted [FloatOps F] (s : smpl_rbudget_ctx F)
    (cur : llama_token_data_array F)
    (h : s.inside = false ∨ s.budget = 0 ∨ s.used < s.budget) :
    smpl_rbudget_apply s cur = (s, cur) := by
  unfold smpl_rbudget_apply
  rcases h with h | h | h
  · simp [h]
  · simp [h]
  · simp [h]

theorem apply_hard [FloatOps F] (s : smpl_rbudget_ctx F) (cur : llama_token_data_array F)
    (hhard : s.hard = true) (hin : s.inside = true) (hb : 0 < s.budget)
    (hu : s.budget ≤ s.used) (front : Int) (rest : List Int)
    (hq : (if s.forceq = [] then s.close else s.forceq) = front :: rest) :
    smpl_rbudget_apply s cur
      = ({ s with forceq := front :: rest }, clamp_to_token cur front) := by
  have hb0 : ¬ s.budget = 0 := by omega
  have hu0 : ¬ s.used < s.budget := by omega
  unfold smpl_rbudget_apply begin_force_close
  by_cases hf : s.forceq = []
  · rw [if_pos hf] at hq
    simp [hin, hb0, hu0, hhard, hf, hq]
  · rw [if_neg hf] at hq
    have hs : ({ s with forceq := front :: rest } : smpl_rbudget_ctx F) = s := by
      rw [← hq]
    rw [hs]
    simp [hin, hb0, hu0, hhard, hq]

theorem apply_soft [FloatOps F] (s : smpl_rbudget_ctx F) (cur : llama_token_data_array F)
    (hsoft : s.hard = false) (hin : s.inside = true) (hb : 0 < s.budget)
    (hu : s.budget ≤ s.used) (front : Int) (rest : List Int) (hc : s.close = front :: rest) :
    smpl_rbudget_apply s cur = (s, bias_token cur front s.close_bias) := by
  have hb0 : ¬ s.budget = 0 := by omega
  have hu0 : ¬ s.used < s.budget := by omega
  unfold smpl_rbudget_apply
  simp [hin, hb0, hu0, hsoft, hc]

/-! ## Claims -/

/-- C2. `apply` is a no-op outside an exhausted span: when `inside` is false, or the
budget is 0, or `used < budget`, it returns the candidate set and the whole sampler
context unchanged; and with budget 0 no `apply` changes its candidate set after any
sequence of host calls from construction. -/
theorem apply_noop_unless_exhausted [FloatOps F] :
    (∀ (s : smpl_rbudget_ctx F) (cur : llama_token_data_array F),
        (s.inside = false ∨ s.budget = 0 ∨ s.used < s.budget) →
        smpl_rbudget_apply s cur = (s, cur)) ∧
    (∀ (open_seq close_seq : List Int) (bias : F) (hard : Bool) (calls : List (Call F))
        (cur : llama_token_data_array F),
        smpl_rbudget_apply
            (run (llama_sampler_init_reasoning_budget 0 open_seq close_seq bias hard) calls) cur
          = (run (llama_sampler_init_reasoning_budget 0 open_seq close_seq bias hard) calls,
              cur)) := by
  refine ⟨fun s cur h => apply_of_not_exhausted s cur h, ?_⟩
  intro o c bias hard calls cur
  apply apply_of_not_exhausted
  right; left
  exact (run_config _ calls).2.2.1

/-- C3. Disabled open tag: with an empty open sequence, after every sequence of accept,
apply and reset calls on a freshly constructed instance, `inside` is false, `used` is 0,
the force queue is empty, and `apply` returns every candidate set unchanged. -/
theorem disabled_open_tag [FloatOps F] (budget : Nat) (close_seq : List Int) (bias : F)
    (hard : Bool) (calls : List (Call F)) :
    (run (llama_sampler_init_reasoning_budget budget [] close_seq bias hard) calls).inside = false ∧
    (run (llama_sampler_init_reasoning_budget budget [] close_seq bias hard) calls).used = 0 ∧
    (run (llama_sampler_init_reasoning_budget budget [] close_seq bias hard) calls).forceq = [] ∧
    ∀ cur : llama_token_data_array F,
      smpl_rbudget_apply
          (run (llama_sampler_init_reasoning_budget budget [] close_seq bias hard) calls) cur
        = (run (llama_sampler_init_reasoning_budget budget [] close_seq bias hard) calls, cur) := by
  have key : ∀ (calls : List (Call F)) (s : smpl_rbudget_ctx F),
      s.open = [] → s.inside = false → s.used = 0 → s.forceq = [] →
      (run s calls).inside = false ∧ (run s calls).used = 0 ∧ (run s calls).forceq = [] := by
    intro calls
    induction calls with
    | nil => intro s _ h2 h3 h4; exact ⟨h2, h3, h4⟩
    | cons c cs ih =>
      intro s ho hi hu hq
      have hstep : (step s c).open = [] ∧ (step s c).inside = false ∧ (step s c).used = 0
          ∧ (step s c).forceq = [] := by
        cases c with
        | accept tok =>
          have hm : tag_match (push_window s.window s.max_win tok) s.open = false := by
            rw [ho]; exact tag_match_nil _
          simp only [step, smpl_rbudget_accept, hq]
          rw [push_tok_outside s tok hi hm]
          exact ⟨ho, hi, hu, hq⟩
        | apply cur =>
          simp only [step, apply_of_not_exhausted s cur (Or.inl hi)]
          exact ⟨ho, hi, hu, hq⟩
        | reset => exact ⟨ho, rfl, rfl, rfl⟩
      exact ih (step s c) hstep.1 hstep.2.1 hstep.2.2.1 hstep.2.2.2
  obtain ⟨h1, h2, h3⟩ :=
    key calls (llama_sampler_init_reasoning_budget budget [] close_seq bias hard) rfl rfl rfl rfl
  exact ⟨h1, h2, h3, fun cur => apply_of_not_exhausted _ cur (Or.inl h1)⟩

/-- C4. Clamp postcondition on a non-empty candidate set: with `i` the first index whose
id is `want`, or the last index if there is none, `clamp_to_token` keeps the size, keeps
every id (and every `p`) except that entry `i` gets id `want`, gives entry `i` the
sentinel score `1e9f` and every other entry negative infinity, sets `selected = i` and
`sorted = false`; so the selected entry has id `want`, and its score is strictly greater
than every other entry's as soon as negative infinity is below the sentinel. -/
theorem clamp_postcondition [FloatOps F] (cur : llama_token_data_array F) (want : Int)
    (hne : cur.data ≠ []) :
    clamp_index cur.data want < cur.data.length ∧
    (∀ m e, m < clamp_index cur.data want → cur.data[m]? = some e → e.id ≠ want) ∧
    ((∃ e, cur.data[clamp_index cur.data want]? = some e ∧ e.id = want) ∨
      ((∀ e ∈ cur.data, e.id ≠ want) ∧ clamp_index cur.data want + 1 = cur.data.length)) ∧
    (clamp_to_token cur want).data.length = cur.data.length ∧
    (∀ (j : Nat) (d : llama_token_data F), cur.data[j]? = some d →
      (clamp_to_token cur want).data[j]? =
        some { id := if j = clamp_index cur.data want then want else d.id,
               logit := if j = clamp_index cur.data want then FloatOps.big else FloatOps.negInf,
               p := d.p }) ∧
    (clamp_to_token cur want).selected = (clamp_index cur.data want : Int) ∧
    (clamp_to_token cur want).sorted = false ∧
    selected_id (clamp_to_token cur want) = some want ∧
    (FloatOps.lt (FloatOps.negInf : F) FloatOps.big = true →
      ∀ j d e, j ≠ clamp_index cur.data want →
        (clamp_to_token cur want).data[j]? = some d →
        (clamp_to_token cur want).data[clamp_index cur.data want]? = some e →
        FloatOps.lt d.logit e.logit = true) := by
  have hlt := clamp_index_lt cur.data want hne
  have hget := clamp_to_token_getElem? cur want hne
  have hsel := clamp_to_token_selected cur want hne
  have hlen := clamp_to_token_length cur want
  have hi : (clamp_to_token cur want).data[clamp_index cur.data want]? =
      some { id := want, logit := FloatOps.big,
             p := (cur.data[clamp_index cur.data want]).p } := by
    have := hget (clamp_index cur.data want) _ (List.getElem?_eq_getElem hlt)
    simpa using this
  refine ⟨hlt, fun m e hm he => clamp_index_first cur.data want m e hm he,
    clamp_index_hit_or_last cur.data want hne, hlen, hget, hsel, rfl, ?_, ?_⟩
  · exact clamp_selected_id cur want hne
  · intro hord j d e hj hd he
    rw [hi] at he
    have he2 := Option.some.inj he
    have hjl : j < cur.data.length := by
      rcases Nat.lt_or_ge j (clamp_to_token cur want).data.length with h | h
      · omega
      · rw [List.getElem?_eq_none h] at hd; cases hd
    have := hget j _ (List.getElem?_eq_getElem hjl)
    rw [hd] at this
    have hd2 := Option.some.inj this
    rw [hd2, ← he2]
    simpa [hj] using hord

/-- Scenario D of the specification: three candidates none of which is token 7;
clamping to 7 overwrites the last id and selects index 2. -/
theorem clamp_postcondition_witness :
    cur3.data ≠ [] ∧ clamp_index cur3.data 7 = 2 ∧ (clamp_to_token cur3 7).selected = 2 ∧
    (clamp_to_token cur3 7).data =
      [{ id := 1, logit := ZScore.negInf, p := ZScore.fin 0 },
       { id := 2, logit := ZScore.negInf, p := ZScore.fin 0 },
       { id := 7, logit := ZScore.fin 1000000000, p := ZScore.fin 0 }] ∧
    selected_id (clamp_to_token cur3 7) = some 7 := by
  have hne : cur3.data ≠ [] := by decide
  have hpost := clamp_postcondition cur3 7 hne
  have hsel : selected_id (clamp_to_token cur3 7) = some 7 := hpost.2.2.2.2.2.2.2.1
  refine ⟨hne, ?_, ?_, ?_, hsel⟩ <;> decide

/-- C5. Soft-mode apply: with `hard = false`, `inside = true`, `0 < budget ≤ used` and
close sequence `c0 :: rest`, `apply` leaves the sampler context unchanged (so the force
queue stays as it was), keeps the size, the selection and the sorted flag, adds
`close_bias` to the score of the first entry whose id is `c0`, and leaves every other
entry (every entry whose id is not `c0`, or that comes after an entry with id `c0`) as
it was; when no entry has id `c0` the candidate set is unchanged. -/
theorem soft_apply [FloatOps F] (s : smpl_rbudget_ctx F) (cur : llama_token_data_array F)
    (c0 : Int) (rest : List Int)
    (hsoft : s.hard = false) (hin : s.inside = true) (hb : 0 < s.budget)
    (hu : s.budget ≤ s.used) (hc : s.close = c0 :: rest) :
    (smpl_rbudget_apply s cur).1 = s ∧
    (smpl_rbudget_apply s cur).2.data.length = cur.data.length ∧
    (smpl_rbudget_apply s cur).2.selected = cur.selected ∧
    (smpl_rbudget_apply s cur).2.sorted = cur.sorted ∧
    (∀ (j : Nat) (d : llama_token_data F), cur.data[j]? = some d → d.id = c0 →
      (∀ m e, m < j → cur.data[m]? = some e → e.id ≠ c0) →
      (smpl_rbudget_apply s cur).2.data[j]? =
        some { d with logit := FloatOps.add d.logit s.close_bias }) ∧
    (∀ (j : Nat) (d : llama_token_data F), cur.data[j]? = some d →
      (d.id ≠ c0 ∨ ∃ m e, m < j ∧ cur.data[m]? = some e ∧ e.id = c0) →
      (smpl_rbudget_apply s cur).2.data[j]? = some d) ∧
    ((∀ d ∈ cur.data, d.id ≠ c0) → (smpl_rbudget_apply s cur).2 = cur) := by
  rw [apply_soft s cur hsoft hin hb hu c0 rest hc]
  refine ⟨rfl, bias_loop_length _ _ _, rfl, rfl, ?_, ?_, ?_⟩
  · intro j d hd hid hfirst
    exact bias_loop_first c0 s.close_bias cur.data j d hd hid hfirst
  · intro j d hd h
    exact bias_loop_other c0 s.close_bias cur.data j d hd h
  · intro h
    simp only [bias_token, bias_loop_absent c0 s.close_bias cur.data h]

/-- Scenario B of the specification: soft mode with bias 5 adds 5 to the score of
token 9 and changes nothing else. -/
theorem soft_apply_witness :
    smpl_rbudget_apply ctxB cur9
      = (ctxB, { data := [cand 1 3, cand 9 5], selected := -1, sorted := true }) ∧
    (smpl_rbudget_apply ctxB cur9).1 = ctxB := by
  have hB : ctxB.hard = false ∧ ctxB.inside = true ∧ 0 < ctxB.budget ∧
      ctxB.budget ≤ ctxB.used ∧ ctxB.close = [9] := by decide
  exact ⟨by decide, (soft_apply ctxB cur9 9 [] hB.1 hB.2.1 hB.2.2.1 hB.2.2.2.1 hB.2.2.2.2).1⟩

/-- C8. Hard-mode apply, single step: with `hard = true`, `inside = true`,
`0 < budget ≤ used` and a non-empty close sequence, `apply` changes the context only in
the force queue, which becomes the whole close sequence if it was empty and stays as it
was otherwise; the returned candidate set is the given one clamped to the front of
that queue. -/
theorem hard_apply_step [FloatOps F] (s : smpl_rbudget_ctx F) (cur : llama_token_data_array F)
    (hhard : s.hard = true) (hin : s.inside = true) (hb : 0 < s.budget)
    (hu : s.budget ≤ s.used) (hc : s.close ≠ []) :
    (smpl_rbudget_apply s cur).1
      = { s with forceq := if s.forceq = [] then s.close else s.forceq } ∧
    ∃ front, (smpl_rbudget_apply s cur).1.forceq.head? = some front ∧
      (smpl_rbudget_apply s cur).2 = clamp_to_token cur front := by
  have hq : ∃ front rest, (if s.forceq = [] then s.close else s.forceq) = front :: rest := by
    by_cases hf : s.forceq = []
    · rw [if_pos hf]
      cases hcl : s.close with
      | nil => exact absurd hcl hc
      | cons x xs => exact ⟨x, xs, rfl⟩
    · rw [if_neg hf]
      cases hfq : s.forceq with
      | nil => exact absurd hfq hf
      | cons x xs => exact ⟨x, xs, rfl⟩
  obtain ⟨front, rest, hq⟩ := hq
  rw [apply_hard s cur hhard hin hb hu front rest hq, hq]
  exact ⟨rfl, front, rfl, rfl⟩

/-- Scenario A of the specification: after the stream 5, 1, 2 the budget of 2 is used
up; `apply` fills the force queue with the close sequence and clamps to token 9. -/
theorem hard_apply_step_witness :
    (ctxA_exhausted.inside = true ∧ ctxA_exhausted.used = 2 ∧ ctxA_exhausted.forceq = []) ∧
    (smpl_rbudget_apply ctxA_exhausted cur9).1
      = { ctxA_exhausted with
          forceq := if ctxA_exhausted.forceq = [] then ctxA_exhausted.close
                    else ctxA_exhausted.forceq } ∧
    (smpl_rbudget_apply ctxA_exhausted cur9).1.forceq = [9] ∧
    selected_id (smpl_rbudget_apply ctxA_exhausted cur9).2 = some 9 := by
  have hA : ctxA_exhausted.hard = true ∧ ctxA_exhausted.inside = true ∧
      0 < ctxA_exhausted.budget ∧ ctxA_exhausted.budget ≤ ctxA_exhausted.used ∧
      ctxA_exhausted.close ≠ [] := by decide
  refine ⟨by decide,
    (hard_apply_step ctxA_exhausted cur9 hA.1 hA.2.1 hA.2.2.1 hA.2.2.2.1 hA.2.2.2.2).1, ?_⟩
  decide

/-- Witness for C2 on Scenario A: before the budget is used up `apply` changes nothing. -/
theorem apply_noop_unless_exhausted_witness :
    (accept_all ctxA [5, 1]).used < (accept_all ctxA [5, 1]).budget ∧
    smpl_rbudget_apply (accept_all ctxA [5, 1]) cur9 = (accept_all ctxA [5, 1], cur9) :=
  ⟨by decide,
    apply_noop_unless_exhausted.1 (accept_all ctxA [5, 1]) cur9 (Or.inr (Or.inr (by decide)))⟩

theorem accept_eq (s : smpl_rbudget_ctx F) (tok : Int) :
    smpl_rbudget_accept s tok = push_tok { s with forceq := drain s.forceq tok } tok := by
  obtain ⟨o, c, w, q, b, u, i, h, cb, mw⟩ := s
  cases q with
  | nil => rfl
  | cons x xs =>
    by_cases hx : tok = x
    · simp [smpl_rbudget_accept, drain, hx]
    · simp [smpl_rbudget_accept, drain, hx]

theorem accept_enter (s : smpl_rbudget_ctx F) (t : Int) (hin : s.inside = false)
    (hm : tag_match (push_window s.window s.max_win t) s.open = true) :
    smpl_rbudget_accept s t = { s with window := push_window s.window s.max_win t,
                                       inside := true, used := 0, forceq := [] } := by
  rw [accept_eq, push_tok_enter { s with forceq := drain s.forceq t } t hin hm]

theorem accept_outside (s : smpl_rbudget_ctx F) (t : Int) (hin : s.inside = false)
    (hm : tag_match (push_window s.window s.max_win t) s.open = false) :
    smpl_rbudget_accept s t = { s with window := push_window s.window s.max_win t,
                                       forceq := drain s.forceq t } := by
  rw [accept_eq, push_tok_outside { s with forceq := drain s.forceq t } t hin hm]

theorem accept_exit (s : smpl_rbudget_ctx F) (t : Int) (hin : s.inside = true)
    (hm : tag_match (push_window s.window s.max_win t) s.close = true) :
    smpl_rbudget_accept s t = { s with window := push_window s.window s.max_win t,
                                       inside := false, used := 0, forceq := [] } := by
  rw [accept_eq, push_tok_exit { s with forceq := drain s.forceq t } t hin hm]

theorem accept_inside (s : smpl_rbudget_ctx F) (t : Int) (hin : s.inside = true)
    (hm : tag_match (push_window s.window s.max_win t) s.close = false) :
    smpl_rbudget_accept s t = { s with window := push_window s.window s.max_win t,
                                       forceq := drain s.forceq t,
                                       used := (s.used + 1) % 2 ^ 32 } := by
  rw [accept_eq, push_tok_inside { s with forceq := drain s.forceq t } t hin hm]

/-- C6 (as amended). Budget-tracker step: `accept` pushes the token to the window; from
outside it enters exactly when the open sequence is non-empty and the new window ends
with it (then `used = 0` and the force queue is empty) and otherwise keeps `inside` and
`used`; from inside it leaves exactly when the close sequence is non-empty and the new
window ends with it (then `used = 0` and the force queue is empty) and otherwise `used`
becomes `(used + 1) mod 2^32`, which is `used + 1` unless the counter was at its maximum.
Only one of the two tests is made, so one accept performs at most one transition. -/
theorem accept_tracker_step (s : smpl_rbudget_ctx F) (t : Int) :
    (smpl_rbudget_accept s t).window = push_window s.window s.max_win t ∧
    (s.inside = false →
      ((smpl_rbudget_accept s t).inside = true ↔
        (s.open ≠ [] ∧ s.open <:+ push_window s.window s.max_win t)) ∧
      ((smpl_rbudget_accept s t).inside = true →
        (smpl_rbudget_accept s t).used = 0 ∧ (smpl_rbudget_accept s t).forceq = []) ∧
      ((smpl_rbudget_accept s t).inside = false →
        (smpl_rbudget_accept s t).used = s.used)) ∧
    (s.inside = true →
      ((smpl_rbudget_accept s t).inside = false ↔
        (s.close ≠ [] ∧ s.close <:+ push_window s.window s.max_win t)) ∧
      ((smpl_rbudget_accept s t).inside = false →
        (smpl_rbudget_accept s t).used = 0 ∧ (smpl_rbudget_accept s t).forceq = []) ∧
      ((smpl_rbudget_accept s t).inside = true →
        (smpl_rbudget_accept s t).used = (s.used + 1) % 2 ^ 32 ∧
        (s.used + 1 < 2 ^ 32 → (smpl_rbudget_accept s t).used = s.used + 1))) := by
  refine ⟨accept_window s t, ?_, ?_⟩
  · intro hin
    cases hm : tag_match (push_window s.window s.max_win t) s.open
    · have hn : ¬ (s.open ≠ [] ∧ s.open <:+ push_window s.window s.max_win t) := by
        rw [← tag_match_iff, hm]; simp
      rw [accept_outside s t hin hm]
      simp [hin, hn]
    · have hy := (tag_match_iff _ _).mp hm
      rw [accept_enter s t hin hm]
      simp [hy]
  · intro hin
    cases hm : tag_match (push_window s.window s.max_win t) s.close
    · have hn : ¬ (s.close ≠ [] ∧ s.close <:+ push_window s.window s.max_win t) := by
        rw [← tag_match_iff, hm]; simp
      rw [accept_inside s t hin hm]
      simp only [hin, hn, iff_false, Bool.true_eq_false, not_false_eq_true, false_implies,
        true_implies, true_and]
      intro h
      exact Nat.mod_eq_of_lt h
    · have hy := (tag_match_iff _ _).mp hm
      rw [accept_exit s t hin hm]
      simp [hy]

/-- Counterexample to C6 as stated: inside a span with `used = 2^32 - 1`, accepting a
token that does not complete the close sequence leaves `inside` true but `used` becomes
0, not `used + 1`. -/
theorem accept_used_wraps :
    ctx_max_used.inside = true ∧
    tag_match (push_window ctx_max_used.window ctx_max_used.max_win 1) ctx_max_used.close = false ∧
    (smpl_rbudget_accept ctx_max_used 1).inside = true ∧
    (smpl_rbudget_accept ctx_max_used 1).used = 0 ∧
    (smpl_rbudget_accept ctx_max_used 1).used ≠ ctx_max_used.used + 1 := by
  decide

/-! ## Repeated apply -/

theorem clamp_to_token_nil [FloatOps F] (sel : Int) (srt : Bool) (want : Int) :
    clamp_to_token ({ data := [], selected := sel, sorted := srt } : llama_token_data_array F)
      want = { data := [], selected := -1, sorted := false } := by
  simp [clamp_to_token, find_id, set_logits]

theorem clamp_to_token_idem [FloatOps F] (cur : llama_token_data_array F) (want : Int) :
    clamp_to_token (clamp_to_token cur want) want = clamp_to_token cur want := by
  by_cases hne : cur.data = []
  · obtain ⟨data, sel, srt⟩ := cur
    simp only at hne
    subst hne
    rw [clamp_to_token_nil, clamp_to_token_nil]
  · have hlen := clamp_to_token_length cur want
    have hne2 : (clamp_to_token cur want).data ≠ [] := by
      intro h
      rw [h] at hlen
      exact hne (List.length_eq_zero.mp hlen.symm)
    have hlt := clamp_index_lt cur.data want hne
    have hget := clamp_to_token_getElem? cur want hne
    -- the index selected by the second clamp is the one selected by the first
    have hidx : clamp_index (clamp_to_token cur want).data want = clamp_index cur.data want := by
      apply clamp_index_unique _ want _ _
        (hget (clamp_index cur.data want) _ (List.getElem?_eq_getElem hlt))
      · simp
      · intro m x hm hx
        have hml : m < cur.data.length := by omega
        have := hget m _ (List.getElem?_eq_getElem hml)
        rw [hx] at this
        have hx2 := Option.some.inj this
        rw [hx2]
        have hmne : ¬ m = clamp_index cur.data want := by omega
        simp only [if_neg hmne]
        exact clamp_index_first cur.data want m _ hm (List.getElem?_eq_getElem hml)
    have hsel1 := clamp_to_token_selected cur want hne
    have hsel2 := clamp_to_token_selected (clamp_to_token cur want) want hne2
    have hdata : (clamp_to_token (clamp_to_token cur want) want).data
        = (clamp_to_token cur want).data := by
      apply List.ext_getElem?
      intro j
      rcases Nat.lt_or_ge j cur.data.length with hj | hj
      · have h1 := hget j _ (List.getElem?_eq_getElem hj)
        have h2 := clamp_to_token_getElem? (clamp_to_token cur want) want hne2 j _ h1
        rw [h2, h1, hidx]
        by_cases hji : j = clamp_index cur.data want
        · simp only [if_pos hji]
        · simp only [if_neg hji]
      · rw [List.getElem?_eq_none, List.getElem?_eq_none]
        · rw [hlen]; exact hj
        · rw [clamp_to_token_length, hlen]; exact hj
    have hsorted : ∀ c : llama_token_data_array F, (clamp_to_token c want).sorted = false :=
      fun _ => rfl
    have hstruct : ∀ a b : llama_token_data_array F,
        a.data = b.data → a.selected = b.selected → a.sorted = b.sorted → a = b := by
      intro a b h1 h2 h3
      cases a; cases b; simp only at h1 h2 h3; subst h1 h2 h3; rfl
    apply hstruct _ _ hdata
    · rw [hsel2, hsel1, hidx]
    · rw [hsorted, hsorted]

theorem apply_hard_empty [FloatOps F] (s : smpl_rbudget_ctx F) (cur : llama_token_data_array F)
    (hhard : s.hard = true) (hq : s.forceq = []) (hc : s.close = []) :
    smpl_rbudget_apply s cur = (s, cur) := by
  obtain ⟨o, c, w, q, b, u, i, h, cb, mw⟩ := s
  simp only at hhard hq hc
  subst hhard hq hc
  simp [smpl_rbudget_apply, begin_force_close]

/-- C9 (as amended). Repeated apply: a second `apply` with no accept in between leaves
the sampler context as the first one left it; it also leaves the candidate set as the
first one left it in hard mode and whenever `apply` is a no-op (outside a span, budget
0, budget not used up, or an empty close sequence); in soft mode with the budget used up
it adds `close_bias` once more to the first entry whose id is the first close token. -/
theorem apply_twice [FloatOps F] (s : smpl_rbudget_ctx F) (cur : llama_token_data_array F) :
    (smpl_rbudget_apply (smpl_rbudget_apply s cur).1 (smpl_rbudget_apply s cur).2).1
      = (smpl_rbudget_apply s cur).1 ∧
    ((s.hard = true ∨ s.inside = false ∨ s.budget = 0 ∨ s.used < s.budget ∨ s.close = []) →
      smpl_rbudget_apply (smpl_rbudget_apply s cur).1 (smpl_rbudget_apply s cur).2
        = smpl_rbudget_apply s cur) ∧
    (∀ c0 rest, s.hard = false → s.inside = true → 0 < s.budget → s.budget ≤ s.used →
      s.close = c0 :: rest →
      (smpl_rbudget_apply (smpl_rbudget_apply s cur).1 (smpl_rbudget_apply s cur).2).2
        = bias_token (bias_token cur c0 s.close_bias) c0 s.close_bias) := by
  -- hard mode, or a no-op: the second apply repeats the first
  have hsame : (s.hard = true ∨ s.inside = false ∨ s.budget = 0 ∨ s.used < s.budget
        ∨ s.close = []) →
      smpl_rbudget_apply (smpl_rbudget_apply s cur).1 (smpl_rbudget_apply s cur).2
        = smpl_rbudget_apply s cur := by
    intro h
    by_cases hex : s.inside = false ∨ s.budget = 0 ∨ s.used < s.budget
    · rw [apply_of_not_exhausted s cur hex]
      exact apply_of_not_exhausted s cur hex
    · have hin : s.inside = true := by
        cases hi : s.inside
        · exact absurd (Or.inl hi) hex
        · rfl
      have hb : 0 < s.budget := by
        rcases Nat.eq_zero_or_pos s.budget with h0 | h0
        · exact absurd (Or.inr (Or.inl h0)) hex
        · exact h0
      have hu : s.budget ≤ s.used := by
        rcases Nat.lt_or_ge s.used s.budget with h0 | h0
        · exact absurd (Or.inr (Or.inr h0)) hex
        · exact h0
      cases hh : s.hard
      · -- soft mode with an empty close sequence
        have hc : s.close = [] := by
          rcases h with h | h | h | h | h
          · rw [hh] at h; cases h
          · exact absurd (Or.inl h) hex
          · exact absurd (Or.inr (Or.inl h)) hex
          · exact absurd (Or.inr (Or.inr h)) hex
          · exact h
        have hnoop : ∀ c : llama_token_data_array F, smpl_rbudget_apply s c = (s, c) := by
          intro c
          obtain ⟨o, cl, w, q, b, u, i, hd, cb, mw⟩ := s
          simp only at hh hc hin
          subst hh hc hin
          simp [smpl_rbudget_apply]
        rw [hnoop cur]
        exact hnoop cur
      · cases hq : (if s.forceq = [] then s.close else s.forceq) with
        | nil =>
          have hq1 : s.forceq = [] := by
            by_cases hf : s.forceq = []
            · exact hf
            · rw [if_neg hf] at hq; exact hq
          have hc1 : s.close = [] := by rw [if_pos hq1] at hq; exact hq
          rw [apply_hard_empty s cur hh hq1 hc1]
          exact apply_hard_empty s cur hh hq1 hc1
        | cons front rest =>
          rw [apply_hard s cur hh hin hb hu front rest hq]
          rw [apply_hard { s with forceq := front :: rest } (clamp_to_token cur front)
            hh hin hb hu front rest (by simp)]
          rw [clamp_to_token_idem]
  refine ⟨?_, hsame, ?_⟩
  · cases hh : s.hard
    · by_cases hex : s.inside = false ∨ s.budget = 0 ∨ s.used < s.budget
      · rw [hsame (Or.inr (by tauto))]
      · have hin : s.inside = true := by
          cases hi : s.inside
          · exact absurd (Or.inl hi) hex
          · rfl
        have hb : 0 < s.budget := by
          rcases Nat.eq_zero_or_pos s.budget with h0 | h0
          · exact absurd (Or.inr (Or.inl h0)) hex
          · exact h0
        have hu : s.budget ≤ s.used := by
          rcases Nat.lt_or_ge s.used s.budget with h0 | h0
          · exact absurd (Or.inr (Or.inr h0)) hex
          · exact h0
        cases hc : s.close with
        | nil => rw [hsame (by tauto)]
        | cons c0 rest =>
          rw [apply_soft s cur hh hin hb hu c0 rest hc]
          rw [apply_soft s _ hh hin hb hu c0 rest hc]
    · rw [hsame (Or.inl hh)]
  · intro c0 rest hh hin hb hu hc
    rw [apply_soft s cur hh hin hb hu c0 rest hc]
    rw [apply_soft s _ hh hin hb hu c0 rest hc]

/-- Counterexample to C9 as stated (Scenario B, soft mode with bias 5): the first
`apply` raises the score of token 9 from 0 to 5, the second from 5 to 10, so two
applies do not give the candidate set that one apply gives. -/
theorem apply_twice_soft_differs :
    (smpl_rbudget_apply ctxB cur9).2.data = [cand 1 3, cand 9 5] ∧
    (smpl_rbudget_apply (smpl_rbudget_apply ctxB cur9).1 (smpl_rbudget_apply ctxB cur9).2).2.data
      = [cand 1 3, cand 9 10] ∧
    smpl_rbudget_apply (smpl_rbudget_apply ctxB cur9).1 (smpl_rbudget_apply ctxB cur9).2
      ≠ smpl_rbudget_apply ctxB cur9 := by
  decide

/-! ## The window keeps what was just pushed -/

theorem push_window_suffix (w pat : List Int) (max_win t : Int) (hs : pat <:+ w)
    (hcap : (pat.length : Int) + 1 ≤ max_win) :
    (pat ++ [t]) <:+ push_window w max_win t := by
  obtain ⟨x, rfl⟩ := hs
  unfold push_window
  simp only
  split
  · rename_i hgt
    cases x with
    | nil =>
      simp only [List.nil_append, List.length_append, List.length_singleton] at hgt
      push_cast at hgt
      omega
    | cons a x =>
      simp only [List.cons_append, List.tail_cons, List.append_assoc]
      exact List.suffix_append _ _
  · rw [List.append_assoc]
    exact List.suffix_append _ _

theorem accept_all_cons (s : smpl_rbudget_ctx F) (t : Int) (ts : List Int) :
    accept_all s (t :: ts) = accept_all (smpl_rbudget_accept s t) ts := rfl

theorem accept_all_nil (s : smpl_rbudget_ctx F) : accept_all s [] = s := rfl

/-- Accepting the rest `todo` of the open sequence from outside a span, when the part
`done` already accepted is at the end of the window: the span is entered at some token
of `todo`, and not before. -/
theorem reentry_aux (todo : List Int) :
    ∀ (s : smpl_rbudget_ctx F) (done : List Int), s.open = done ++ todo → todo ≠ [] →
      s.inside = false → done <:+ s.window → (s.open.length : Int) ≤ s.max_win →
      ∃ n, n < todo.length ∧
        (∀ m, m ≤ n → (accept_all s (todo.take m)).inside = false) ∧
        (accept_all s (todo.take (n + 1))).inside = true ∧
        (accept_all s (todo.take (n + 1))).used = 0 ∧
        (accept_all s (todo.take (n + 1))).forceq = [] ∧
        (done ++ todo.take (n + 1)) <:+ (accept_all s (todo.take (n + 1))).window ∧
        s.open <:+ (accept_all s (todo.take (n + 1))).window := by
  induction todo with
  | nil => intro s done _ h; exact absurd rfl h
  | cons t todo ih =>
    intro s done hopen _ hin hdone hcap
    have hlen : s.open.length = done.length + (todo.length + 1) := by
      rw [hopen]; simp
    have hsuf : (done ++ [t]) <:+ push_window s.window s.max_win t :=
      push_window_suffix s.window done s.max_win t hdone (by omega)
    cases hm : tag_match (push_window s.window s.max_win t) s.open
    · -- not entered at this token
      have hacc := accept_outside s t hin hm
      have htodo : todo ≠ [] := by
        intro h
        have : tag_match (push_window s.window s.max_win t) s.open = true := by
          rw [tag_match_iff, hopen, h]
          exact ⟨by simp, hsuf⟩
        rw [hm] at this; cases this
      have hopen2 : (smpl_rbudget_accept s t).open = (done ++ [t]) ++ todo := by
        rw [hacc]; simp [hopen]
      obtain ⟨n, hn, hbefore, h1, h2, h3, h4, h5⟩ :=
        ih (smpl_rbudget_accept s t) (done ++ [t]) hopen2 htodo
          (by rw [hacc]; exact hin) (by rw [hacc]; exact hsuf)
          (by rw [hacc]; exact hcap)
      refine ⟨n + 1, by simp only [List.length_cons]; omega, ?_, ?_, ?_, ?_, ?_, ?_⟩
      · intro m hmn
        cases m with
        | zero => exact hin
        | succ m =>
          rw [List.take_succ_cons, accept_all_cons]
          exact hbefore m (by omega)
      · rw [List.take_succ_cons, accept_all_cons]; exact h1
      · rw [List.take_succ_cons, accept_all_cons]; exact h2
      · rw [List.take_succ_cons, accept_all_cons]; exact h3
      · rw [List.take_succ_cons, accept_all_cons]
        simpa using h4
      · rw [List.take_succ_cons, accept_all_cons]
        have : (smpl_rbudget_accept s t).open = s.open := by rw [hacc]
        rw [← this]; exact h5
    · -- entered at this token
      have hacc := accept_enter s t hin hm
      have hy := (tag_match_iff _ _).mp hm
      refine ⟨0, by simp, ?_, ?_, ?_, ?_, ?_, ?_⟩
      · intro m hm0
        have : m = 0 := by omega
        subst this
        exact hin
      all_goals
        simp only [Nat.zero_add, List.take_succ_cons, List.take_zero, accept_all_cons,
          accept_all_nil, hacc]
      · exact hsuf
      · exact hy.2

/-- C10 (as amended). Span re-entry: for a non-empty open sequence and a state with
`inside = false` reached from construction by any host calls, while the tokens of the
open sequence are accepted in order the span is entered at the first accept after which
the window ends with the open sequence, at the latest at the last token, with `used = 0`
and an empty force queue right after that accept. When no proper non-empty prefix of the
open sequence is also a suffix of it (always so for a one-token open sequence), that
accept is the last one, so the final state has `inside = true`, `used = 0` and an empty
force queue. -/
theorem span_reentry [FloatOps F] (budget : Nat) (open_seq close_seq : List Int) (bias : F)
    (hard : Bool) (calls : List (Call F)) (s : smpl_rbudget_ctx F)
    (hs : s = run (llama_sampler_init_reasoning_budget budget open_seq close_seq bias hard) calls)
    (hopen : open_seq ≠ []) (hout : s.inside = false) :
    (∃ n, n < open_seq.length ∧
      (∀ m, m ≤ n → (accept_all s (open_seq.take m)).inside = false) ∧
      (accept_all s (open_seq.take (n + 1))).inside = true ∧
      (accept_all s (open_seq.take (n + 1))).used = 0 ∧
      (accept_all s (open_seq.take (n + 1))).forceq = []) ∧
    ((∀ k, 0 < k → k < open_seq.length → ¬ (open_seq.take k <:+ open_seq)) →
      (accept_all s open_seq).inside = true ∧ (accept_all s open_seq).used = 0 ∧
      (accept_all s open_seq).forceq = []) := by
  have hcfg := run_config
    (llama_sampler_init_reasoning_budget budget open_seq close_seq bias hard) calls
  rw [← hs] at hcfg
  have ho : s.open = open_seq := hcfg.1
  have hmw : (s.open.length : Int) ≤ s.max_win := by
    rw [ho, hcfg.2.2.2.2.2]
    simp only [llama_sampler_init_reasoning_budget]
    omega
  obtain ⟨n, hn, hbefore, h1, h2, h3, h4, h5⟩ :=
    reentry_aux open_seq s [] (by simpa using ho) hopen hout List.nil_suffix hmw
  refine ⟨⟨n, hn, hbefore, h1, h2, h3⟩, ?_⟩
  intro hborder
  have hlast : n + 1 = open_seq.length := by
    by_contra hne
    have hlt : n + 1 < open_seq.length := by omega
    apply hborder (n + 1) (by omega) hlt
    rw [ho] at h5
    simp only [List.nil_append] at h4
    exact List.suffix_of_suffix_length_le h4 h5 (by simp)
  have htake : open_seq.take (n + 1) = open_seq := by
    rw [hlast]; exact List.take_length _
  rw [htake] at h1 h2 h3
  exact ⟨h1, h2, h3⟩

/-- Scenario E of the specification on Scenario A: after the exit, accepting the open
sequence (the single token 5) re-enters with `used = 0` and an empty force queue. -/
theorem span_reentry_witness :
    ctxA_exited.inside = false ∧
    (accept_all ctxA_exited [5]).inside = true ∧ (accept_all ctxA_exited [5]).used = 0 ∧
    (accept_all ctxA_exited [5]).forceq = [] :=
  ⟨by decide,
    (span_reentry 2 [5] [9] (ZScore.fin 0) true [.accept 5, .accept 1, .accept 2, .accept 9]
      ctxA_exited rfl (by decide) (by decide)).2 (by intro k h1 h2; simp at h2; omega)⟩

/-- Counterexample to C10 as stated: open = 5, 5 and one stray 5 accepted outside a
span. Accepting the open sequence 5, 5 enters the span already at its first token, so
its second token is counted and the final state has `used = 1`, not 0. -/
theorem span_reentry_overlap :
    (run ctx55 [.accept 5]).inside = false ∧
    (accept_all (run ctx55 [.accept 5]) ctx55.open).inside = true ∧
    (accept_all (run ctx55 [.accept 5]) ctx55.open).used = 1 ∧
    (accept_all (run ctx55 [.accept 5]) ctx55.open).used ≠ 0 := by
  decide

/-! ## Hard-mode closure -/

theorem drain_front (c : Int) (rest : List Int) : drain (c :: rest) c = rest := by
  simp [drain]

theorem host_round_hard [FloatOps F] (x : smpl_rbudget_ctx F) (cur : llama_token_data_array F)
    (hhard : x.hard = true) (hin : x.inside = true) (hb : 0 < x.budget)
    (hu : x.budget ≤ x.used) (c : Int) (rest : List Int)
    (hq : (if x.forceq = [] then x.close else x.forceq) = c :: rest) (hne : cur.data ≠ []) :
    selected_id (smpl_rbudget_apply x cur).2 = some c ∧
    host_round x cur = smpl_rbudget_accept { x with forceq := c :: rest } c := by
  have happ := apply_hard x cur hhard hin hb hu c rest hq
  have hsel := clamp_selected_id cur c hne
  refine ⟨by rw [happ]; exact hsel, ?_⟩
  simp only [host_round, happ, hsel]

theorem hard_closure_aux [FloatOps F] (s : smpl_rbudget_ctx F)
    (curs : Nat → llama_token_data_array F)
    (hhard : s.hard = true) (hb : 0 < s.budget) (hu : s.budget ≤ s.used)
    (hcap : (s.close.length : Int) ≤ s.max_win)
    (hcurs : ∀ i, (curs i).data ≠ []) (hwrap : s.used + s.close.length ≤ 2 ^ 32) :
    ∀ d i, i + d = s.close.length → 0 < d →
      (host_rounds s curs i).inside = true →
      (host_rounds s curs i).used = s.used + i →
      (if (host_rounds s curs i).forceq = [] then s.close else (host_rounds s curs i).forceq)
        = s.close.drop i →
      s.close.take i <:+ (host_rounds s curs i).window →
      same_config s (host_rounds s curs i) →
      (∀ i', i' < i →
        (host_rounds s curs i').inside = true ∧
        selected_id (smpl_rbudget_apply (host_rounds s curs i') (curs i')).2 = s.close[i']?) →
      hard_closure s curs := by
  intro d
  induction d with
  | zero => intro i _ h; exact absurd h (Nat.lt_irrefl 0)
  | succ d ih =>
    intro i hid _ hin hused hq hwin hcfg hprev
    obtain ⟨_, hc, hbud, hhd, _, hmw⟩ := hcfg
    have hik : i < s.close.length := by omega
    have hdrop : s.close.drop i = s.close[i] :: s.close.drop (i + 1) :=
      List.drop_eq_getElem_cons hik
    have hq' : (if (host_rounds s curs i).forceq = [] then (host_rounds s curs i).close
        else (host_rounds s curs i).forceq) = s.close[i] :: s.close.drop (i + 1) := by
      rw [hc, hq, hdrop]
    obtain ⟨hsel, hround⟩ := host_round_hard (host_rounds s curs i) (curs i)
      (by rw [hhd]; exact hhard) hin (by rw [hbud]; exact hb)
      (by rw [hbud, hused]; omega) _ _ hq' (hcurs i)
    have hnext : host_rounds s curs (i + 1)
        = smpl_rbudget_accept
            { host_rounds s curs i with forceq := s.close[i] :: s.close.drop (i + 1) }
            s.close[i] := by
      rw [← hround]; rfl
    have hR : ∀ i', i' < i + 1 →
        (host_rounds s curs i').inside = true ∧
        selected_id (smpl_rbudget_apply (host_rounds s curs i') (curs i')).2 = s.close[i']? := by
      intro i' hi'
      rcases Nat.lt_or_ge i' i with h | h
      · exact hprev i' h
      · have : i' = i := by omega
        subst this
        exact ⟨hin, by rw [hsel, List.getElem?_eq_getElem hik]⟩
    have htake : s.close.take (i + 1) = s.close.take i ++ [s.close[i]] := by
      rw [List.take_succ, List.getElem?_eq_getElem hik]; rfl
    have hsuf : s.close.take (i + 1)
        <:+ push_window (host_rounds s curs i).window (host_rounds s curs i).max_win
              s.close[i] := by
      rw [htake]
      apply push_window_suffix _ _ _ _ hwin
      rw [hmw, List.length_take]
      omega
    cases hm : tag_match
        (push_window (host_rounds s curs i).window (host_rounds s curs i).max_win s.close[i])
        (host_rounds s curs i).close
    · -- the close sequence is not complete yet
      have hacc := accept_inside
        { host_rounds s curs i with forceq := s.close[i] :: s.close.drop (i + 1) }
        s.close[i] hin hm
      rw [← hnext] at hacc
      simp only [drain_front] at hacc
      have hlt : i + 1 < s.close.length := by
        by_contra hge
        have hk : i + 1 = s.close.length := by omega
        have : tag_match
            (push_window (host_rounds s curs i).window (host_rounds s curs i).max_win
              s.close[i]) (host_rounds s curs i).close = true := by
          rw [tag_match_iff, hc]
          refine ⟨?_, ?_⟩
          · intro h; rw [h] at hik; simp at hik
          · rw [hk, List.take_length] at hsuf; exact hsuf
        rw [hm] at this; cases this
      have hdne : s.close.drop (i + 1) ≠ [] := by
        intro h
        have := congrArg List.length h
        simp only [List.length_drop, List.length_nil] at this
        omega
      have hd0 : 0 < d := by omega
      apply ih (i + 1) (by omega) hd0
      · rw [hacc]; exact hin
      · rw [hacc]
        simp only [hused]
        rw [Nat.mod_eq_of_lt (by omega)]
        omega
      · rw [hacc]
        simp only [if_neg hdne]
      · rw [hacc]; exact hsuf
      · rw [hacc]
        exact ⟨by assumption, hc, hbud, hhd, by assumption, hmw⟩
      · exact hR
    · -- the window ends with the close sequence: the span is left
      have hacc := accept_exit
        { host_rounds s curs i with forceq := s.close[i] :: s.close.drop (i + 1) }
        s.close[i] hin hm
      rw [← hnext] at hacc
      refine ⟨i + 1, by omega, by omega, hR, ?_, ?_, ?_⟩ <;> rw [hacc]

/-- C1 (as amended). Hard-mode closure: in hard mode with `budget > 0`, a non-empty close
sequence of length `k`, window capacity `max(|open|, |close|, 8)`, and a state with
`inside = true`, `used ≥ budget`, an empty force queue and `used + k ≤ 2^32` (the 32-bit
counter does not wrap during the closure), when the host repeats the round "apply on a
non-empty candidate set, then accept the selected token", then in round `i` while still
inside the selected token is the close token number `i`, and after some `j` rounds with
`1 ≤ j ≤ k` the state has `inside = false`, `used = 0` and an empty force queue. -/
theorem hard_mode_closure [FloatOps F] (s : smpl_rbudget_ctx F)
    (curs : Nat → llama_token_data_array F)
    (hhard : s.hard = true) (hb : 0 < s.budget) (hc : s.close ≠ [])
    (hcap : s.max_win = max (max (s.open.length : Int) (s.close.length : Int)) 8)
    (hin : s.inside = true) (hu : s.budget ≤ s.used) (hq : s.forceq = [])
    (hcurs : ∀ i, (curs i).data ≠ []) (hwrap : s.used + s.close.length ≤ 2 ^ 32) :
    hard_closure s curs := by
  have hpos : 0 < s.close.length := List.length_pos.mpr hc
  apply hard_closure_aux s curs hhard hb hu (by rw [hcap]; omega) hcurs hwrap
    s.close.length 0 (by omega) hpos
  · exact hin
  · rfl
  · simp only [host_rounds, hq, if_true, List.drop_zero]
  · simp
  · exact same_config_refl s
  · intro i' h; omega

/-- Scenario A of the specification: after the stream 5, 1, 2 the forced close token 9
is selected and accepted, and the span is left after one round. -/
theorem hard_mode_closure_witness :
    hard_closure ctxA_exhausted (fun _ => cur9) ∧
    selected_id (smpl_rbudget_apply ctxA_exhausted cur9).2 = some 9 ∧
    (host_rounds ctxA_exhausted (fun _ => cur9) 1).inside = false ∧
    (host_rounds ctxA_exhausted (fun _ => cur9) 1).used = 0 ∧
    (host_rounds ctxA_exhausted (fun _ => cur9) 1).forceq = [] := by
  have hcfg : ctxA_exhausted.hard = true ∧ 0 < ctxA_exhausted.budget ∧
      ctxA_exhausted.close ≠ [] ∧
      ctxA_exhausted.max_win =
        max (max (ctxA_exhausted.open.length : Int) (ctxA_exhausted.close.length : Int)) 8 := by
    decide
  have hstate : ctxA_exhausted.inside = true ∧ ctxA_exhausted.budget ≤ ctxA_exhausted.used ∧
      ctxA_exhausted.forceq = [] ∧
      ctxA_exhausted.used + ctxA_exhausted.close.length ≤ 2 ^ 32 := by
    decide
  have hcur : cur9.data ≠ [] := by decide
  refine ⟨hard_mode_closure ctxA_exhausted (fun _ => cur9) hcfg.1 hcfg.2.1 hcfg.2.2.1
    hcfg.2.2.2 hstate.1 hstate.2.1 hstate.2.2.1 (fun _ => hcur) hstate.2.2.2, ?_⟩
  decide

/-- Counterexample to C1 as stated: hard mode, budget 1, close = 9, 10, inside with
`used = 2^32 - 1` and an empty force queue. Round 0 selects and accepts 9, which wraps
`used` to 0; in round 1 the sampler is still inside but `used < budget`, so `apply`
changes nothing and the second close token 10 is not selected: closure fails. -/
theorem hard_closure_fails_on_wrap :
    (ctx_hard_max_used.hard = true ∧ 0 < ctx_hard_max_used.budget ∧
      ctx_hard_max_used.inside = true ∧ ctx_hard_max_used.budget ≤ ctx_hard_max_used.used ∧
      ctx_hard_max_used.forceq = [] ∧
      ctx_hard_max_used.max_win =
        max (max (ctx_hard_max_used.open.length : Int) (ctx_hard_max_used.close.length : Int)) 8 ∧
      cur9.data ≠ []) ∧
    ((host_rounds ctx_hard_max_used (fun _ => cur9) 1).inside = true ∧
      (host_rounds ctx_hard_max_used (fun _ => cur9) 1).used = 0 ∧
      smpl_rbudget_apply (host_rounds ctx_hard_max_used (fun _ => cur9) 1) cur9
        = (host_rounds ctx_hard_max_used (fun _ => cur9) 1, cur9)) ∧
    ¬ hard_closure ctx_hard_max_used (fun _ => cur9) := by
  have hstart : ctx_hard_max_used.close.length = 2 := by decide
  have hround1 : (host_rounds ctx_hard_max_used (fun _ => cur9) 1).inside = true := by decide
  have hsel1 : selected_id
      (smpl_rbudget_apply (host_rounds ctx_hard_max_used (fun _ => cur9) 1) cur9).2
        ≠ ctx_hard_max_used.close[1]? := by decide
  refine ⟨by decide, by decide, ?_⟩
  rintro ⟨j, hj1, hj2, hall, hexit, _, _⟩
  rw [hstart] at hj2
  have hj : j = 1 ∨ j = 2 := by omega
  rcases hj with rfl | rfl
  · rw [hround1] at hexit; cases hexit
  · exact hsel1 (hall 1 (by omega)).2

/-! ## The force-queue invariant -/

theorem drain_suffix (q : List Int) (t : Int) : drain q t <:+ q := by
  cases q with
  | nil => exact List.suffix_refl _
  | cons x xs =>
    by_cases h : t = x
    · simp only [drain, h, if_true]; exact List.suffix_cons x xs
    · simp only [drain, h, if_false]; exact List.suffix_refl _

theorem drain_ne_nil (q : List Int) (t : Int) (h : drain q t ≠ []) : q ≠ [] := by
  intro hq; rw [hq] at h; exact h rfl

theorem apply_soft_state [FloatOps F] (s : smpl_rbudget_ctx F)
    (cur : llama_token_data_array F) (hsoft : s.hard = false) :
    (smpl_rbudget_apply s cur).1 = s := by
  obtain ⟨o, c, w, q, b, u, i, h, cb, mw⟩ := s
  simp only at hsoft
  subst hsoft
  cases c <;> cases i <;> simp [smpl_rbudget_apply]
  all_goals (split_ifs <;> rfl)

theorem forceq_inv_accept (s : smpl_rbudget_ctx F) (n : Nat) (t : Int)
    (h : forceq_inv s n) : forceq_inv (smpl_rbudget_accept s t) (n + 1) := by
  obtain ⟨hsuf, hne, hcnt⟩ := h
  cases hin : s.inside
  · cases hm : tag_match (push_window s.window s.max_win t) s.open
    · rw [accept_outside s t hin hm]
      have hq : s.forceq = [] := by
        by_contra hq
        have := (hne hq).1
        rw [hin] at this; cases this
      refine ⟨?_, ?_, ?_⟩
      · simp [hq, drain]
      · intro h; simp [hq, drain] at h
      · intro hn
        have := hcnt (by omega)
        refine ⟨by simp only; omega, ?_⟩
        intro h; simp [hq, drain] at h
    · rw [accept_enter s t hin hm]
      exact ⟨List.nil_suffix, fun h => absurd rfl h, fun _ => ⟨Nat.zero_le _, fun h => absurd rfl h⟩⟩
  · cases hm : tag_match (push_window s.window s.max_win t) s.close
    · rw [accept_inside s t hin hm]
      refine ⟨(drain_suffix _ _).trans hsuf, ?_, ?_⟩
      · intro h
        have := hne (drain_ne_nil _ _ h)
        exact ⟨hin, this.2⟩
      · intro hn
        have hc := hcnt (by omega)
        have hmod : (s.used + 1) % 2 ^ 32 = s.used + 1 := Nat.mod_eq_of_lt (by omega)
        simp only [hmod]
        refine ⟨by omega, ?_⟩
        intro h
        have := hc.2 (drain_ne_nil _ _ h)
        omega
    · rw [accept_exit s t hin hm]
      exact ⟨List.nil_suffix, fun h => absurd rfl h, fun _ => ⟨Nat.zero_le _, fun h => absurd rfl h⟩⟩

theorem forceq_inv_apply [FloatOps F] (s : smpl_rbudget_ctx F) (n : Nat)
    (cur : llama_token_data_array F) (h : forceq_inv s n) :
    forceq_inv (smpl_rbudget_apply s cur).1 n := by
  by_cases hex : s.inside = false ∨ s.budget = 0 ∨ s.used < s.budget
  · rw [apply_of_not_exhausted s cur hex]; exact h
  · have hin : s.inside = true := by
      cases hi : s.inside
      · exact absurd (Or.inl hi) hex
      · rfl
    have hb : 0 < s.budget := by
      rcases Nat.eq_zero_or_pos s.budget with h0 | h0
      · exact absurd (Or.inr (Or.inl h0)) hex
      · exact h0
    have hu : s.budget ≤ s.used := by
      rcases Nat.lt_or_ge s.used s.budget with h0 | h0
      · exact absurd (Or.inr (Or.inr h0)) hex
      · exact h0
    cases hh : s.hard
    · rw [apply_soft_state s cur hh]; exact h
    · cases hq : (if s.forceq = [] then s.close else s.forceq) with
      | nil =>
        have hq1 : s.forceq = [] := by
          by_cases hf : s.forceq = []
          · exact hf
          · rw [if_neg hf] at hq; exact hq
        have hc1 : s.close = [] := by rw [if_pos hq1] at hq; exact hq
        rw [apply_hard_empty s cur hh hq1 hc1]; exact h
      | cons front rest =>
        rw [apply_hard s cur hh hin hb hu front rest hq]
        obtain ⟨hsuf, _, hcnt⟩ := h
        refine ⟨?_, fun _ => ⟨hin, hb, hh⟩, fun hn => ⟨(hcnt hn).1, fun _ => hu⟩⟩
        show (front :: rest) <:+ s.close
        rw [← hq]
        by_cases hf : s.forceq = []
        · rw [if_pos hf]
        · rw [if_neg hf]; exact hsuf

theorem forceq_inv_reset (s : smpl_rbudget_ctx F) (n : Nat) :
    forceq_inv (smpl_rbudget_reset s) n :=
  ⟨List.nil_suffix, fun h => absurd rfl h, fun _ => ⟨Nat.zero_le _, fun h => absurd rfl h⟩⟩

theorem forceq_inv_run [FloatOps F] (calls : List (Call F)) :
    ∀ (s : smpl_rbudget_ctx F) (n : Nat), forceq_inv s n →
      forceq_inv (run s calls) (n + n_accepts calls) := by
  induction calls with
  | nil => intro s n h; exact h
  | cons c cs ih =>
    intro s n h
    cases c with
    | accept tok =>
      have := ih (smpl_rbudget_accept s tok) (n + 1) (forceq_inv_accept s n tok h)
      simp only [n_accepts]
      rw [show n + (n_accepts cs + 1) = n + 1 + n_accepts cs by omega]
      exact this
    | apply cur => exact ih _ n (forceq_inv_apply s n cur h)
    | reset => exact ih _ n (forceq_inv_reset s n)

/-- C7 (as amended). Force-queue invariant: in every state reached from a freshly
constructed instance by any accept, apply and reset calls, the force queue is a suffix
of the close sequence, and if it is non-empty then `inside` is true, `budget > 0` and
`hard` is true; `used ≥ budget` holds as well whenever fewer than `2^32` tokens have been
accepted since construction (so that the 32-bit counter cannot have wrapped). -/
theorem forceq_invariant [FloatOps F] (budget : Nat) (open_seq close_seq : List Int)
    (bias : F) (hard : Bool) (calls : List (Call F)) :
    (run (llama_sampler_init_reasoning_budget budget open_seq close_seq bias hard) calls).forceq
      <:+ close_seq ∧
    ((run (llama_sampler_init_reasoning_budget budget open_seq close_seq bias hard) calls).forceq
        ≠ [] →
      (run (llama_sampler_init_reasoning_budget budget open_seq close_seq bias hard)
          calls).inside = true ∧
      0 < budget ∧ hard = true ∧
      (n_accepts calls < 2 ^ 32 →
        budget ≤ (run (llama_sampler_init_reasoning_budget budget open_seq close_seq bias hard)
          calls).used)) := by
  have hinit : forceq_inv
      (llama_sampler_init_reasoning_budget budget open_seq close_seq bias hard) 0 :=
    ⟨List.nil_suffix, fun h => absurd rfl h, fun _ => ⟨Nat.le_refl _, fun h => absurd rfl h⟩⟩
  have hcfg := run_config
    (llama_sampler_init_reasoning_budget budget open_seq close_seq bias hard) calls
  obtain ⟨hsuf, hne, hcnt⟩ := forceq_inv_run calls _ 0 hinit
  rw [hcfg.2.1] at hsuf
  refine ⟨hsuf, ?_⟩
  intro hq
  obtain ⟨h1, h2, h3⟩ := hne hq
  rw [hcfg.2.2.1] at h2
  rw [hcfg.2.2.2.1] at h3
  refine ⟨h1, h2, h3, ?_⟩
  intro hn
  have := (hcnt (by omega)).2 hq
  rw [hcfg.2.2.1] at this
  exact this

/-! ## A run on which the 32-bit counter wraps -/

theorem push_window_last (w : List Int) (max_win t : Int) :
    push_window w max_win t = [] ∨ ∃ x, push_window w max_win t = x ++ [t] := by
  unfold push_window
  simp only
  split
  · cases w with
    | nil => left; rfl
    | cons a w => right; exact ⟨w, rfl⟩
  · right; exact ⟨w, rfl⟩

theorem tag_match_push_ne (w : List Int) (max_win t : Int) (pre : List Int) (c : Int)
    (h : c ≠ t) : tag_match (push_window w max_win t) (pre ++ [c]) = false := by
  cases hm : tag_match (push_window w max_win t) (pre ++ [c])
  · rfl
  · exfalso
    obtain ⟨_, y, hy⟩ := (tag_match_iff _ _).mp hm
    rcases push_window_last w max_win t with h0 | ⟨x, hx⟩
    · rw [h0] at hy
      have := congrArg List.length hy
      simp at this
    · rw [hx, ← List.append_assoc] at hy
      have := List.append_inj_right' hy rfl
      simp only [List.cons.injEq, and_true] at this
      exact h this

theorem run_append [FloatOps F] (s : smpl_rbudget_ctx F) (a b : List (Call F)) :
    run s (a ++ b) = run (run s a) b := by
  simp [run, List.foldl_append]

theorem run_cons [FloatOps F] (s : smpl_rbudget_ctx F) (c : Call F) (cs : List (Call F)) :
    run s (c :: cs) = run (step s c) cs := rfl

/-- Inside a span whose close sequence ends in a token other than 1, with an empty
force queue, `n` accepted tokens 1 leave everything but the window as it was and add
`n` to `used`, modulo `2^32`. -/
theorem run_ones [FloatOps F] (pre : List Int) (c : Int) (hc : c ≠ 1) (n : Nat) :
    ∀ s : smpl_rbudget_ctx F, s.inside = true → s.close = pre ++ [c] → s.forceq = [] →
      s.used < 2 ^ 32 →
      (run s (List.replicate n (.accept 1))).inside = true ∧
      (run s (List.replicate n (.accept 1))).used = (s.used + n) % 2 ^ 32 ∧
      (run s (List.replicate n (.accept 1))).forceq = [] ∧
      same_config s (run s (List.replicate n (.accept 1))) := by
  induction n with
  | zero =>
    intro s hin _ hq hlt
    exact ⟨hin, (Nat.mod_eq_of_lt hlt).symm, hq, same_config_refl s⟩
  | succ n ih =>
    intro s hin hcl hq _
    have hm : tag_match (push_window s.window s.max_win 1) s.close = false := by
      rw [hcl]; exact tag_match_push_ne _ _ _ _ _ hc
    have hacc := accept_inside s 1 hin hm
    rw [hq] at hacc
    simp only [drain] at hacc
    obtain ⟨h1, h2, h3, h4⟩ := ih (smpl_rbudget_accept s 1) (by rw [hacc]; exact hin)
      (by rw [hacc]; exact hcl) (by rw [hacc])
      (by rw [hacc]; exact Nat.mod_lt _ (by norm_num))
    rw [List.replicate_succ, run_cons]
    refine ⟨h1, ?_, h3, same_config_trans (accept_config s 1) h4⟩
    rw [show step s (Call.accept 1) = smpl_rbudget_accept s 1 from rfl, h2, hacc]
    simp only [Nat.add_mod, Nat.mod_mod]
    omega

/-- The state after `wrap_calls n` when `n` is the largest `uint32_t` value. -/
theorem wrap_calls_state (n : Nat) (hn : n = 4294967295) :
    (run ctx_big_budget (wrap_calls n)).forceq = [10] ∧
    (run ctx_big_budget (wrap_calls n)).inside = true ∧
    (run ctx_big_budget (wrap_calls n)).used = 0 ∧
    (run ctx_big_budget (wrap_calls n)).budget = 4294967295 := by
  have h5 : (run ctx_big_budget [.accept 5]).inside = true ∧
      (run ctx_big_budget [.accept 5]).close = [9] ++ [10] ∧
      (run ctx_big_budget [.accept 5]).forceq = [] ∧
      (run ctx_big_budget [.accept 5]).used = 0 ∧
      (run ctx_big_budget [.accept 5]).budget = 4294967295 ∧
      (run ctx_big_budget [.accept 5]).hard = true := by
    decide
  obtain ⟨a1, a2, a3, a4, a5, a6⟩ := h5
  obtain ⟨b1, b2, b3, b4⟩ := run_ones [9] 10 (by decide) n
    (run ctx_big_budget [.accept 5]) a1 a2 a3 (by rw [a4]; norm_num)
  rw [a4] at b2
  obtain ⟨_, c2, c3, c4, _, _⟩ := b4
  have hrun : run ctx_big_budget (wrap_calls n)
      = smpl_rbudget_accept
          (smpl_rbudget_apply
            (run (run ctx_big_budget [.accept 5]) (List.replicate n (.accept 1))) cur9).1 9 := by
    rw [wrap_calls, run_append, run_append]; rfl
  rw [hrun]
  -- the state after the open token and the `n` tokens inside the span
  generalize run (run ctx_big_budget [.accept 5]) (List.replicate n (.accept 1)) = x
    at b1 b2 b3 c2 c3 c4
  have b2' : x.used = 4294967295 := by rw [b2, hn]; norm_num
  have hq : (if x.forceq = [] then x.close else x.forceq) = 9 :: [10] := by
    rw [if_pos b3, c2, a2]; rfl
  have happ := apply_hard x cur9 (by rw [c4, a6]) b1 (by rw [c3, a5]; norm_num)
    (by rw [c3, a5, b2']) 9 [10] hq
  have hm : tag_match (push_window x.window x.max_win 9) x.close = false := by
    rw [c2, a2]; exact tag_match_push_ne _ _ _ _ _ (by decide)
  have hacc := accept_inside { x with forceq := [9, 10] } 9 b1 hm
  rw [happ, hacc]
  refine ⟨?_, b1, ?_, ?_⟩
  · simp [drain]
  · simp only [b2']; norm_num
  · simp only [c3, a5]

/-- Counterexample to C7 as stated: an honest host accepts the open token and then
`2^32 - 1` tokens inside the span, which uses up the budget of `2^32 - 1`; `apply` fills
the force queue with 9, 10 and clamps to 9; accepting 9 wraps `used` to 0. The force
queue is then non-empty (it holds 10) while `used < budget`. -/
theorem forceq_nonempty_below_budget :
    (run ctx_big_budget (wrap_calls 4294967295)).forceq = [10] ∧
    (run ctx_big_budget (wrap_calls 4294967295)).inside = true ∧
    (run ctx_big_budget (wrap_calls 4294967295)).used = 0 ∧
    (run ctx_big_budget (wrap_calls 4294967295)).budget = 4294967295 ∧
    ¬ ((run ctx_big_budget (wrap_calls 4294967295)).forceq ≠ [] →
        (run ctx_big_budget (wrap_calls 4294967295)).budget
          ≤ (run ctx_big_budget (wrap_calls 4294967295)).used) := by
  obtain ⟨h1, h2, h3, h4⟩ := wrap_calls_state 4294967295 rfl
  refine ⟨h1, h2, h3, h4, ?_⟩
  intro hc
  have hne : (run ctx_big_budget (wrap_calls 4294967295)).forceq ≠ [] := by
    intro h0
    exact absurd (h1.symm.trans h0) (by decide)
  have hle := hc hne
  have h43 := h4.symm.trans_le (hle.trans_eq h3)
  exact absurd h43 (by decide)

/-! ## Empty candidate set, empty close sequence, lifecycle -/

/-- C11. Clamp on an empty candidate set: for every token, `clamp_to_token` on a set of
size 0 creates no entry (the size stays 0) and leaves no index selected: `selected` is
`-1`, so no entry is marked as selected. -/
theorem clamp_empty [FloatOps F] (cur : llama_token_data_array F) (want : Int)
    (hempty : cur.data = []) :
    (clamp_to_token cur want).data = [] ∧
    (clamp_to_token cur want).data.length = 0 ∧
    (clamp_to_token cur want).selected = -1 ∧
    selected_id (clamp_to_token cur want) = none := by
  obtain ⟨data, sel, srt⟩ := cur
  simp only at hempty
  subst hempty
  rw [clamp_to_token_nil]
  exact ⟨rfl, rfl, rfl, rfl⟩

/-- Witness for C11: clamping the empty set to token 9 yields the empty set with
`selected = -1`, whatever the selection field held before. -/
theorem clamp_empty_witness :
    cur_empty.data = [] ∧
    clamp_to_token cur_empty 9 = { data := [], selected := -1, sorted := false } ∧
    selected_id (clamp_to_token cur_empty 9) = none :=
  ⟨rfl, by decide, (clamp_empty cur_empty 9 rfl).2.2.2⟩

theorem apply_close_empty [FloatOps F] (s : smpl_rbudget_ctx F)
    (cur : llama_token_data_array F) (hc : s.close = []) (hq : s.forceq = []) :
    smpl_rbudget_apply s cur = (s, cur) := by
  cases hh : s.hard
  · have h1 := apply_soft_state s cur hh
    obtain ⟨o, c, w, q, b, u, i, h, cb, mw⟩ := s
    simp only at hc hq hh
    subst hc hq hh
    simp [smpl_rbudget_apply]
  · exact apply_hard_empty s cur hh hq hc

theorem accept_forceq_nil (s : smpl_rbudget_ctx F) (t : Int) (hq : s.forceq = []) :
    (smpl_rbudget_accept s t).forceq = [] := by
  cases hin : s.inside
  · cases hm : tag_match (push_window s.window s.max_win t) s.open
    · rw [accept_outside s t hin hm]; simp [hq, drain]
    · rw [accept_enter s t hin hm]
  · cases hm : tag_match (push_window s.window s.max_win t) s.close
    · rw [accept_inside s t hin hm]; simp [hq, drain]
    · rw [accept_exit s t hin hm]

/-- C12. Disabled close tag: with an empty close sequence, in every state reached from a
freshly constructed instance by accept, apply and reset calls, the force queue is empty,
`apply` returns every candidate set (and the context) unchanged, in hard and in soft mode
and whatever the budget, and no accept takes `inside` from true to false. -/
theorem disabled_close_tag [FloatOps F] (budget : Nat) (open_seq : List Int) (bias : F)
    (hard : Bool) (calls : List (Call F)) :
    (run (llama_sampler_init_reasoning_budget budget open_seq [] bias hard) calls).forceq = [] ∧
    (∀ cur : llama_token_data_array F,
      smpl_rbudget_apply
          (run (llama_sampler_init_reasoning_budget budget open_seq [] bias hard) calls) cur
        = (run (llama_sampler_init_reasoning_budget budget open_seq [] bias hard) calls, cur)) ∧
    (∀ t : Int,
      (run (llama_sampler_init_reasoning_budget budget open_seq [] bias hard) calls).inside = true →
      (smpl_rbudget_accept
        (run (llama_sampler_init_reasoning_budget budget open_seq [] bias hard) calls) t).inside
          = true) := by
  have key : ∀ (calls : List (Call F)) (s : smpl_rbudget_ctx F),
      s.close = [] → s.forceq = [] → (run s calls).forceq = [] := by
    intro calls
    induction calls with
    | nil => intro s _ hq; exact hq
    | cons c cs ih =>
      intro s hc hq
      have hc' : (step s c).close = [] := by rw [(step_config s c).2.1, hc]
      refine ih (step s c) hc' ?_
      cases c with
      | accept tok => exact accept_forceq_nil s tok hq
      | apply cur =>
        show (smpl_rbudget_apply s cur).1.forceq = []
        rw [apply_close_empty s cur hc hq]; exact hq
      | reset => rfl
  have hcfg := run_config
    (llama_sampler_init_reasoning_budget budget open_seq [] bias hard) calls
  have hc : (run (llama_sampler_init_reasoning_budget budget open_seq [] bias hard)
      calls).close = [] := by rw [hcfg.2.1]; rfl
  have hq := key calls (llama_sampler_init_reasoning_budget budget open_seq [] bias hard)
    rfl rfl
  refine ⟨hq, fun cur => apply_close_empty _ cur hc hq, ?_⟩
  intro t hin
  have hm : tag_match
      (push_window
        (run (llama_sampler_init_reasoning_budget budget open_seq [] bias hard) calls).window
        (run (llama_sampler_init_reasoning_budget budget open_seq [] bias hard) calls).max_win t)
      (run (llama_sampler_init_reasoning_budget budget open_seq [] bias hard) calls).close
        = false := by
    rw [hc]; exact tag_match_nil _
  rw [accept_inside _ t hin hm]
  exact hin

/-- C14. Lifecycle: `reset` and `clone` both give the fresh state for the configuration
of `s`: the tags, budget, mode, bias and window capacity of `s` with an empty window, an
empty force queue, `used = 0` and `inside = false`; when the capacity of `s` is the one
the constructor sets, this is the constructor's result. The clone depends only on the
configuration of its original (the original is an argument that the function does not
return, so it is not changed), and `reset` is idempotent. -/
theorem lifecycle (s : smpl_rbudget_ctx F) :
    smpl_rbudget_reset s =
      { «open» := s.open, close := s.close, window := [], forceq := [], budget := s.budget,
        used := 0, inside := false, hard := s.hard, close_bias := s.close_bias,
        max_win := s.max_win } ∧
    smpl_rbudget_clone s = smpl_rbudget_reset s ∧
    smpl_rbudget_reset (smpl_rbudget_reset s) = smpl_rbudget_reset s ∧
    smpl_rbudget_reset (smpl_rbudget_clone s) = smpl_rbudget_clone s ∧
    (∀ r : smpl_rbudget_ctx F, same_config s r → smpl_rbudget_clone r = smpl_rbudget_clone s) ∧
    (s.max_win = max (max (s.open.length : Int) (s.close.length : Int)) 8 →
      smpl_rbudget_reset s =
          llama_sampler_init_reasoning_budget s.budget s.open s.close s.close_bias s.hard ∧
      smpl_rbudget_clone s =
          llama_sampler_init_reasoning_budget s.budget s.open s.close s.close_bias s.hard) := by
  refine ⟨rfl, rfl, rfl, rfl, ?_, ?_⟩
  · intro r hr
    obtain ⟨h1, h2, h3, h4, h5, h6⟩ := hr
    simp only [smpl_rbudget_clone, h1, h2, h3, h4, h5, h6]
  · intro hmw
    constructor <;>
      simp [smpl_rbudget_reset, smpl_rbudget_clone, llama_sampler_init_reasoning_budget, hmw]

/-- Every state reached from a constructed instance has the constructor's capacity, so
there `reset` and `clone` give back the constructor's result. -/
theorem lifecycle_reachable [FloatOps F] (budget : Nat) (open_seq close_seq : List Int)
    (bias : F) (hard : Bool) (calls : List (Call F)) :
    smpl_rbudget_reset
        (run (llama_sampler_init_reasoning_budget budget open_seq close_seq bias hard) calls)
      = llama_sampler_init_reasoning_budget budget open_seq close_seq bias hard ∧
    smpl_rbudget_clone
        (run (llama_sampler_init_reasoning_budget budget open_seq close_seq bias hard) calls)
      = llama_sampler_init_reasoning_budget budget open_seq close_seq bias hard := by
  obtain ⟨h1, h2, h3, h4, h5, h6⟩ := run_config
    (llama_sampler_init_reasoning_budget budget open_seq close_seq bias hard) calls
  constructor <;>
    simp only [smpl_rbudget_reset, smpl_rbudget_clone, h1, h2, h3, h4, h5, h6] <;> rfl

/-- Witness for C12: hard mode, budget used up inside the span, empty close sequence:
`apply` changes neither the candidate set nor the context, and the next accept stays
inside. -/
theorem disabled_close_tag_witness :
    (ctx_no_close.inside = true ∧ ctx_no_close.budget ≤ ctx_no_close.used ∧
      ctx_no_close.hard = true) ∧
    smpl_rbudget_apply ctx_no_close cur9 = (ctx_no_close, cur9) ∧
    (smpl_rbudget_accept ctx_no_close 9).inside = true :=
  ⟨by decide,
    (disabled_close_tag 1 [5] (ZScore.fin 0) true [.accept 5, .accept 1, .accept 2]).2.1 cur9,
    by decide⟩

/-! ## The tag matcher and the drain step -/

theorem suffix_iff_elementwise (w p : List Int) :
    p <:+ w ↔ p.length ≤ w.length ∧
      ∀ i, i < p.length → w[w.length - p.length + i]? = p[i]? := by
  constructor
  · rintro ⟨x, rfl⟩
    refine ⟨by simp, ?_⟩
    intro i _
    simp only [List.length_append]
    rw [show x.length + p.length - p.length + i = x.length + i by omega]
    rw [List.getElem?_append_right (by omega)]
    congr 1
    omega
  · rintro ⟨hle, hel⟩
    rw [List.suffix_iff_eq_drop]
    apply List.ext_getElem?
    intro i
    rw [List.getElem?_drop]
    rcases Nat.lt_or_ge i p.length with hi | hi
    · exact (hel i hi).symm
    · rw [List.getElem?_eq_none hi, List.getElem?_eq_none (by omega)]

/-- C15. Tag matcher: the match test of `push_tok` (the pattern is non-empty and
`ends_with` holds) is true exactly when the pattern is non-empty, no longer than the
window, and equal, element by element and in order, to the last `|p|` elements of the
window; a pattern longer than the window never matches and the empty pattern never
matches. -/
theorem tag_matcher (w p : List Int) :
    ((!p.isEmpty && ends_with w p) = true ↔
      (p ≠ [] ∧ p.length ≤ w.length ∧
        ∀ i, i < p.length → w[w.length - p.length + i]? = p[i]?)) ∧
    ((!p.isEmpty && ends_with w p) = true ↔
      (p ≠ [] ∧ p.length ≤ w.length ∧ w.drop (w.length - p.length) = p)) ∧
    (w.length < p.length → (!p.isEmpty && ends_with w p) = false) ∧
    (!([] : List Int).isEmpty && ends_with w []) = false := by
  have h1 : (!p.isEmpty && ends_with w p) = true ↔ (p ≠ [] ∧ p <:+ w) := tag_match_iff w p
  refine ⟨?_, ?_, ?_, ?_⟩
  · rw [h1, suffix_iff_elementwise]
  · rw [h1]
    constructor
    · rintro ⟨hne, hs⟩
      exact ⟨hne, hs.length_le, (List.suffix_iff_eq_drop.mp hs).symm⟩
    · rintro ⟨hne, _, hd⟩
      exact ⟨hne, List.suffix_iff_eq_drop.mpr hd.symm⟩
  · intro hlt
    cases hm : (!p.isEmpty && ends_with w p)
    · rfl
    · have := (h1.mp hm).2.length_le
      omega
  · exact tag_match_nil w

theorem push_tok_forceq_irrelevant (s : smpl_rbudget_ctx F) (q : List Int) (t : Int) :
    (push_tok { s with forceq := q } t).inside = (push_tok s t).inside ∧
    (push_tok { s with forceq := q } t).used = (push_tok s t).used ∧
    (push_tok { s with forceq := q } t).window = (push_tok s t).window := by
  rcases Bool.eq_false_or_eq_true s.inside with hin | hin
  · rcases Bool.eq_false_or_eq_true (tag_match (push_window s.window s.max_win t) s.close)
      with hm | hm
    · rw [push_tok_exit s t hin hm, push_tok_exit { s with forceq := q } t hin hm]
      exact ⟨rfl, rfl, rfl⟩
    · rw [push_tok_inside s t hin hm, push_tok_inside { s with forceq := q } t hin hm]
      exact ⟨rfl, rfl, rfl⟩
  · rcases Bool.eq_false_or_eq_true (tag_match (push_window s.window s.max_win t) s.open)
      with hm | hm
    · rw [push_tok_enter s t hin hm, push_tok_enter { s with forceq := q } t hin hm]
      exact ⟨rfl, rfl, rfl⟩
    · rw [push_tok_outside s t hin hm, push_tok_outside { s with forceq := q } t hin hm]
      exact ⟨rfl, rfl, rfl⟩

/-- C16. Force-queue draining: `accept` compares the token with the front of the queue
before the push. When the accept makes no open/close transition (`inside` keeps its
value), the new queue is the old one without its front if the old queue was non-empty
and its front was the token, and the old queue otherwise. The drain does not affect
`inside`, `used` or the window: they are what `push_tok` alone gives from the same
state. -/
theorem accept_drains (s : smpl_rbudget_ctx F) (t : Int) :
    ((smpl_rbudget_accept s t).inside = s.inside →
      (∀ front rest, s.forceq = front :: rest → t = front →
        (smpl_rbudget_accept s t).forceq = rest) ∧
      ((s.forceq = [] ∨ ∃ front rest, s.forceq = front :: rest ∧ t ≠ front) →
        (smpl_rbudget_accept s t).forceq = s.forceq)) ∧
    (smpl_rbudget_accept s t).inside = (push_tok s t).inside ∧
    (smpl_rbudget_accept s t).used = (push_tok s t).used ∧
    (smpl_rbudget_accept s t).window = (push_tok s t).window := by
  refine ⟨?_, ?_⟩
  · intro hkeep
    have hq : (smpl_rbudget_accept s t).forceq = drain s.forceq t := by
      cases hin : s.inside
      · cases hm : tag_match (push_window s.window s.max_win t) s.open
        · rw [accept_outside s t hin hm]
        · rw [accept_enter s t hin hm, hin] at hkeep
          cases hkeep
      · cases hm : tag_match (push_window s.window s.max_win t) s.close
        · rw [accept_inside s t hin hm]
        · rw [accept_exit s t hin hm, hin] at hkeep
          cases hkeep
    rw [hq]
    refine ⟨?_, ?_⟩
    · intro front rest hf ht
      rw [hf, ht, drain_front]
    · rintro (h0 | ⟨front, rest, hf, hne⟩)
      · rw [h0]; rfl
      · rw [hf]; simp [drain, hne]
  · rw [accept_eq]
    exact push_tok_forceq_irrelevant s (drain s.forceq t) t

/-! ## The bounded window -/

theorem push_window_drop (h : List Int) (c : Nat) (t : Int) :
    push_window (h.drop (h.length - c)) (c : Int) t
      = (h ++ [t]).drop ((h ++ [t]).length - c) := by
  unfold push_window
  simp only [List.length_append, List.length_drop, List.length_singleton]
  rcases Nat.lt_or_ge h.length c with hlt | hge
  · -- the window is not full: nothing is evicted
    have h0 : h.length - c = 0 := by omega
    have h1 : h.length + 1 - c = 0 := by omega
    rw [h0, h1, List.drop_zero, List.drop_zero]
    have : ¬ (((h.length - 0 + 1 : Nat) : Int) > (c : Int)) := by omega
    rw [if_neg this]
  · -- the window is full: the oldest entry is evicted
    have hk : h.length - (h.length - c) = c := by omega
    have hgt : ((h.length - (h.length - c) + 1 : Nat) : Int) > (c : Int) := by
      rw [hk]; omega
    have hle : 1 ≤ (List.drop (h.length - c) h ++ [t]).length := by simp
    rw [if_pos hgt, ← List.drop_one]
    rw [show h.length + 1 - c = (h.length - c) + 1 by omega,
      (List.drop_drop 1 (h.length - c) (h ++ [t])).symm]
    rw [@List.drop_append_of_le_length Int h [t] (h.length - c) (by omega)]

theorem apply_window [FloatOps F] (s : smpl_rbudget_ctx F) (cur : llama_token_data_array F) :
    (smpl_rbudget_apply s cur).1.window = s.window := by
  by_cases hex : s.inside = false ∨ s.budget = 0 ∨ s.used < s.budget
  · rw [apply_of_not_exhausted s cur hex]
  · have hin : s.inside = true := by
      cases hi : s.inside
      · exact absurd (Or.inl hi) hex
      · rfl
    have hb : 0 < s.budget := by
      rcases Nat.eq_zero_or_pos s.budget with h0 | h0
      · exact absurd (Or.inr (Or.inl h0)) hex
      · exact h0
    have hu : s.budget ≤ s.used := by
      rcases Nat.lt_or_ge s.used s.budget with h0 | h0
      · exact absurd (Or.inr (Or.inr h0)) hex
      · exact h0
    cases hh : s.hard
    · rw [apply_soft_state s cur hh]
    · cases hq : (if s.forceq = [] then s.close else s.forceq) with
      | nil =>
        have hq1 : s.forceq = [] := by
          by_cases hf : s.forceq = []
          · exact hf
          · rw [if_neg hf] at hq; exact hq
        have hc1 : s.close = [] := by rw [if_pos hq1] at hq; exact hq
        rw [apply_hard_empty s cur hh hq1 hc1]
      | cons front rest => rw [apply_hard s cur hh hin hb hu front rest hq]

theorem window_run [FloatOps F] (c : Nat) (calls : List (Call F)) :
    ∀ (s : smpl_rbudget_ctx F) (h : List Int), s.max_win = (c : Int) →
      s.window = h.drop (h.length - c) →
      (run s calls).window
        = (calls.foldl history_step h).drop ((calls.foldl history_step h).length - c) := by
  induction calls with
  | nil => intro s h _ hw; exact hw
  | cons call cs ih =>
    intro s h hmw hw
    have hmw' : (step s call).max_win = (c : Int) := by
      rw [(step_config s call).2.2.2.2.2, hmw]
    rw [run_cons, List.foldl_cons]
    apply ih (step s call) (history_step h call) hmw'
    cases call with
    | accept tok =>
      show (smpl_rbudget_accept s tok).window = _
      rw [accept_window, hw, hmw]
      exact push_window_drop h c tok
    | apply cur =>
      show (smpl_rbudget_apply s cur).1.window = _
      rw [apply_window, hw]; rfl
    | reset =>
      show ([] : List Int) = _
      simp [history_step]

theorem init_max_win (budget : Nat) (open_seq close_seq : List Int) (bias : F) (hard : Bool) :
    (llama_sampler_init_reasoning_budget budget open_seq close_seq bias hard).max_win
      = ((capacity open_seq close_seq : Nat) : Int) := by
  simp only [llama_sampler_init_reasoning_budget, capacity]
  omega

/-- C13. Window contents and capacity: with `cap = max(|open|, |close|, 8)`, after any
accept, apply and reset calls on a freshly constructed instance the window is exactly
the last `min(n, cap)` of the `n` tokens accepted since construction or the last reset,
in acceptance order; so its length is `min(n, cap)`, never more than `cap`, and `apply`
does not change it. -/
theorem window_contents [FloatOps F] (budget : Nat) (open_seq close_seq : List Int) (bias : F)
    (hard : Bool) (calls : List (Call F)) :
    (run (llama_sampler_init_reasoning_budget budget open_seq close_seq bias hard) calls).window
      = (history calls).drop ((history calls).length - capacity open_seq close_seq) ∧
    (run (llama_sampler_init_reasoning_budget budget open_seq close_seq bias hard)
        calls).window.length
      = min (history calls).length (capacity open_seq close_seq) ∧
    (run (llama_sampler_init_reasoning_budget budget open_seq close_seq bias hard)
        calls).window.length ≤ capacity open_seq close_seq ∧
    (run (llama_sampler_init_reasoning_budget budget open_seq close_seq bias hard)
        calls).window <:+ history calls ∧
    (∀ cur : llama_token_data_array F,
      (smpl_rbudget_apply
        (run (llama_sampler_init_reasoning_budget budget open_seq close_seq bias hard) calls)
        cur).1.window
      = (run (llama_sampler_init_reasoning_budget budget open_seq close_seq bias hard)
          calls).window) := by
  have hw := window_run (capacity open_seq close_seq) calls
    (llama_sampler_init_reasoning_budget budget open_seq close_seq bias hard) []
    (init_max_win budget open_seq close_seq bias hard)
    (by simp [llama_sampler_init_reasoning_budget])
  have hw' : (run (llama_sampler_init_reasoning_budget budget open_seq close_seq bias hard)
      calls).window
      = (history calls).drop ((history calls).length - capacity open_seq close_seq) := hw
  refine ⟨hw', ?_, ?_, ?_, fun cur => apply_window _ cur⟩
  · rw [hw', List.length_drop]; omega
  · rw [hw', List.length_drop]; omega
  · rw [hw']; exact List.drop_suffix _ _

/-! ## The bounded window against the whole history -/

theorem suffix_drop_iff (pat h : List Int) (c : Nat) (hc : pat.length ≤ c) :
    pat <:+ h.drop (h.length - c) ↔ pat <:+ h := by
  constructor
  · intro hs
    exact hs.trans (List.drop_suffix _ _)
  · intro hs
    have hlen := hs.length_le
    rw [List.suffix_iff_eq_drop.mp hs]
    exact List.drop_suffix_drop_left h (by omega)

theorem refines_accept (open_seq close_seq : List Int) (c : Nat) (s : smpl_rbudget_ctx F)
    (r : ref_state) (tok : Int) (ho : s.open = open_seq) (hcl : s.close = close_seq)
    (hmw : s.max_win = (c : Int)) (hoc : open_seq.length ≤ c) (hcc : close_seq.length ≤ c)
    (h : refines c s r) :
    refines c (smpl_rbudget_accept s tok) (ref_accept open_seq close_seq r tok) := by
  obtain ⟨hw, hi, hu⟩ := h
  have hpw : push_window s.window s.max_win tok
      = (r.hist ++ [tok]).drop ((r.hist ++ [tok]).length - c) := by
    rw [hw, hmw]; exact push_window_drop r.hist c tok
  have hopen : tag_match (push_window s.window s.max_win tok) s.open = true ↔
      (open_seq ≠ [] ∧ open_seq <:+ r.hist ++ [tok]) := by
    rw [tag_match_iff, hpw, ho, suffix_drop_iff _ _ c hoc]
  have hclose : tag_match (push_window s.window s.max_win tok) s.close = true ↔
      (close_seq ≠ [] ∧ close_seq <:+ r.hist ++ [tok]) := by
    rw [tag_match_iff, hpw, hcl, suffix_drop_iff _ _ c hcc]
  rcases Bool.eq_false_or_eq_true s.inside with hin | hin
  · have hri : r.inside = true := by rw [← hi]; exact hin
    rcases Bool.eq_false_or_eq_true (tag_match (push_window s.window s.max_win tok) s.close)
      with hm | hm
    · have hc := hclose.mp hm
      rw [accept_exit s tok hin hm]
      simp only [refines, ref_accept, hri, Bool.true_eq_false, if_false, if_pos hc]
      exact ⟨hpw, trivial, trivial⟩
    · have hc : ¬ (close_seq ≠ [] ∧ close_seq <:+ r.hist ++ [tok]) := by
        rw [← hclose, hm]; simp
      rw [accept_inside s tok hin hm]
      simp only [refines, ref_accept, hri, Bool.true_eq_false, if_false, if_neg hc]
      exact ⟨hpw, hin, by rw [hu]⟩
  · have hri : r.inside = false := by rw [← hi]; exact hin
    rcases Bool.eq_false_or_eq_true (tag_match (push_window s.window s.max_win tok) s.open)
      with hm | hm
    · have hc := hopen.mp hm
      rw [accept_enter s tok hin hm]
      simp only [refines, ref_accept, hri, if_true, if_pos hc]
      exact ⟨hpw, trivial, trivial⟩
    · have hc : ¬ (open_seq ≠ [] ∧ open_seq <:+ r.hist ++ [tok]) := by
        rw [← hopen, hm]; simp
      rw [accept_outside s tok hin hm]
      simp only [refines, ref_accept, hri, if_true, if_neg hc]
      exact ⟨hpw, hin, hu⟩

theorem apply_inside_used [FloatOps F] (s : smpl_rbudget_ctx F)
    (cur : llama_token_data_array F) :
    (smpl_rbudget_apply s cur).1.inside = s.inside ∧
    (smpl_rbudget_apply s cur).1.used = s.used := by
  by_cases hex : s.inside = false ∨ s.budget = 0 ∨ s.used < s.budget
  · rw [apply_of_not_exhausted s cur hex]; exact ⟨rfl, rfl⟩
  · have hin : s.inside = true := by
      cases hi : s.inside
      · exact absurd (Or.inl hi) hex
      · rfl
    have hb : 0 < s.budget := by
      rcases Nat.eq_zero_or_pos s.budget with h0 | h0
      · exact absurd (Or.inr (Or.inl h0)) hex
      · exact h0
    have hu : s.budget ≤ s.used := by
      rcases Nat.lt_or_ge s.used s.budget with h0 | h0
      · exact absurd (Or.inr (Or.inr h0)) hex
      · exact h0
    cases hh : s.hard
    · rw [apply_soft_state s cur hh]; exact ⟨rfl, rfl⟩
    · cases hq : (if s.forceq = [] then s.close else s.forceq) with
      | nil =>
        have hq1 : s.forceq = [] := by
          by_cases hf : s.forceq = []
          · exact hf
          · rw [if_neg hf] at hq; exact hq
        have hc1 : s.close = [] := by rw [if_pos hq1] at hq; exact hq
        rw [apply_hard_empty s cur hh hq1 hc1]; exact ⟨rfl, rfl⟩
      | cons front rest =>
        rw [apply_hard s cur hh hin hb hu front rest hq]; exact ⟨rfl, rfl⟩

theorem refines_run [FloatOps F] (open_seq close_seq : List Int) (c : Nat)
    (hoc : open_seq.length ≤ c) (hcc : close_seq.length ≤ c) (calls : List (Call F)) :
    ∀ (s : smpl_rbudget_ctx F) (r : ref_state), s.open = open_seq → s.close = close_seq →
      s.max_win = (c : Int) → refines c s r →
      refines c (run s calls) (calls.foldl (ref_step open_seq close_seq) r) := by
  induction calls with
  | nil => intro s r _ _ _ h; exact h
  | cons call cs ih =>
    intro s r ho hcl hmw h
    obtain ⟨g1, g2, _, _, _, g6⟩ := step_config s call
    rw [run_cons, List.foldl_cons]
    apply ih (step s call) (ref_step open_seq close_seq r call)
      (by rw [g1, ho]) (by rw [g2, hcl]) (by rw [g6, hmw])
    cases call with
    | accept tok => exact refines_accept open_seq close_seq c s r tok ho hcl hmw hoc hcc h
    | apply cur =>
      obtain ⟨hw, hi, hu⟩ := h
      obtain ⟨a1, a2⟩ := apply_inside_used s cur
      exact ⟨(apply_window s cur).trans hw, a1.trans hi, a2.trans hu⟩
    | reset => exact ⟨by simp [step, smpl_rbudget_reset, ref_step], rfl, rfl⟩

/-- C17. The bounded window loses nothing the matcher needs: for every configuration
built by the constructor and every sequence of host calls, the sampler has the same
`inside` and the same `used` as the reference machine, which keeps the whole history of
tokens accepted since construction or the last reset and tests whether that history
ends with the non-empty open sequence (outside) or close sequence (inside). -/
theorem window_refines_history [FloatOps F] (budget : Nat) (open_seq close_seq : List Int)
    (bias : F) (hard : Bool) (calls : List (Call F)) :
    (run (llama_sampler_init_reasoning_budget budget open_seq close_seq bias hard) calls).inside
      = (ref_run open_seq close_seq calls).inside ∧
    (run (llama_sampler_init_reasoning_budget budget open_seq close_seq bias hard) calls).used
      = (ref_run open_seq close_seq calls).used := by
  have h := refines_run open_seq close_seq (capacity open_seq close_seq)
    (by simp only [capacity]; omega) (by simp only [capacity]; omega) calls
    (llama_sampler_init_reasoning_budget budget open_seq close_seq bias hard)
    { hist := [], inside := false, used := 0 } rfl rfl
    (init_max_win budget open_seq close_seq bias hard)
    ⟨by simp [llama_sampler_init_reasoning_budget], rfl, rfl⟩
  exact ⟨h.2.1, h.2.2⟩

/-! ## The budget bound under an honest host -/

theorem forced_token_none (s : smpl_rbudget_ctx F)
    (h : s.inside = false ∨ s.budget = 0 ∨ s.used < s.budget) : forced_token s = none := by
  unfold forced_token
  rcases h with h | h | h
  · simp [h]
  · simp [h]
  · simp [h]

theorem forced_token_hard (s : smpl_rbudget_ctx F)
    (hhard : s.hard = true) (hin : s.inside = true) (hb : 0 < s.budget)
    (hu : s.budget ≤ s.used) (c : Int) (rest : List Int)
    (hq : (if s.forceq = [] then s.close else s.forceq) = c :: rest) :
    forced_token s = some c := by
  have hb0 : ¬ s.budget = 0 := by omega
  have hu0 : ¬ s.used < s.budget := by omega
  unfold forced_token begin_force_close
  by_cases hf : s.forceq = []
  · rw [if_pos hf] at hq
    simp [hin, hb0, hu0, hhard, hf, hq]
  · rw [if_neg hf] at hq
    simp [hin, hb0, hu0, hhard, hq]

theorem accept_used_lt (s : smpl_rbudget_ctx F) (t : Int) (h : s.used < 2 ^ 32) :
    (smpl_rbudget_accept s t).used < 2 ^ 32 := by
  rcases Bool.eq_false_or_eq_true s.inside with hin | hin
  · rcases Bool.eq_false_or_eq_true (tag_match (push_window s.window s.max_win t) s.close)
      with hm | hm
    · rw [accept_exit s t hin hm]; exact Nat.pos_of_ne_zero (by norm_num)
    · rw [accept_inside s t hin hm]; exact Nat.mod_lt _ (by norm_num)
  · rcases Bool.eq_false_or_eq_true (tag_match (push_window s.window s.max_win t) s.open)
      with hm | hm
    · rw [accept_enter s t hin hm]; exact Nat.pos_of_ne_zero (by norm_num)
    · rw [accept_outside s t hin hm]; exact h

theorem rounds_run_used_lt [FloatOps F] (rounds : List (llama_token_data_array F × Int)) :
    ∀ s : smpl_rbudget_ctx F, s.used < 2 ^ 32 → (rounds_run s rounds).used < 2 ^ 32 := by
  induction rounds with
  | nil => intro s h; exact h
  | cons r rest ih =>
    intro s h
    apply ih (round_with s r)
    apply accept_used_lt
    rw [(apply_inside_used s r.1).2]
    exact h

theorem round_with_config [FloatOps F] (s : smpl_rbudget_ctx F)
    (r : llama_token_data_array F × Int) : same_config s (round_with s r) :=
  same_config_trans (apply_config s r.1) (accept_config _ r.2)

theorem honest_inv_round [FloatOps F] (s : smpl_rbudget_ctx F)
    (r : llama_token_data_array F × Int)
    (hhard : s.hard = true) (hb : 0 < s.budget) (hc : s.close ≠ [])
    (hcap : (s.close.length : Int) ≤ s.max_win)
    (hnw : s.budget + s.close.length ≤ 2 ^ 32)
    (hon : forced_token s = none ∨ forced_token s = some r.2)
    (hinv : honest_inv s) : honest_inv (round_with s r) := by
  have hk : 0 < s.close.length := List.length_pos.mpr hc
  obtain ⟨cur, t⟩ := r
  simp only at hon
  unfold round_with
  simp only
  obtain ⟨hout, hins⟩ := hinv
  rcases Bool.eq_false_or_eq_true s.inside with hin | hin
  · rcases hins hin with ⟨hlt, hq⟩ | ⟨j, hj, hused, hq, hwin⟩
    · -- the budget is not used up: `apply` does nothing, any token may follow
      rw [apply_of_not_exhausted s cur (Or.inr (Or.inr hlt))]
      rcases Bool.eq_false_or_eq_true (tag_match (push_window s.window s.max_win t) s.close)
        with hm | hm
      · rw [accept_exit s t hin hm]
        exact ⟨fun _ => ⟨rfl, rfl⟩, fun h => (by cases h)⟩
      · rw [accept_inside s t hin hm]
        refine ⟨fun h => (by rw [hin] at h; cases h), fun _ => ?_⟩
        have hmod : (s.used + 1) % 2 ^ 32 = s.used + 1 := Nat.mod_eq_of_lt (by omega)
        have hdr : drain s.forceq t = [] := by rw [hq]; rfl
        simp only [hmod, hdr]
        rcases Nat.lt_or_ge (s.used + 1) s.budget with h1 | h1
        · exact Or.inl ⟨h1, trivial⟩
        · exact Or.inr ⟨0, hk, by omega, by simp, by simp⟩
    · -- forcing: the host accepts the close token number `j`
      have hdrop : s.close.drop j = s.close[j] :: s.close.drop (j + 1) :=
        List.drop_eq_getElem_cons hj
      rw [hdrop] at hq
      have hu : s.budget ≤ s.used := by omega
      have hforced := forced_token_hard s hhard hin hb hu _ _ hq
      have ht : t = s.close[j] := by
        rcases hon with h | h
        · rw [hforced] at h; cases h
        · rw [hforced] at h; exact (Option.some.inj h).symm
      subst ht
      rw [apply_hard s cur hhard hin hb hu _ _ hq]
      have htake : s.close.take (j + 1) = s.close.take j ++ [s.close[j]] := by
        rw [List.take_succ, List.getElem?_eq_getElem hj]; rfl
      have hsuf : s.close.take (j + 1)
          <:+ push_window s.window s.max_win s.close[j] := by
        rw [htake]
        apply push_window_suffix _ _ _ _ hwin
        rw [List.length_take]
        omega
      rcases Bool.eq_false_or_eq_true
          (tag_match (push_window s.window s.max_win s.close[j]) s.close) with hm | hm
      · rw [accept_exit { s with forceq := s.close[j] :: s.close.drop (j + 1) } _ hin hm]
        exact ⟨fun _ => ⟨rfl, rfl⟩, fun h => (by cases h)⟩
      · rw [accept_inside { s with forceq := s.close[j] :: s.close.drop (j + 1) } _ hin hm]
        simp only [drain_front]
        have hlt : j + 1 < s.close.length := by
          by_contra hge
          have hk : j + 1 = s.close.length := by omega
          have : tag_match (push_window s.window s.max_win s.close[j]) s.close = true := by
            rw [tag_match_iff]
            refine ⟨?_, ?_⟩
            · intro h; rw [h] at hj; simp at hj
            · rw [hk, List.take_length] at hsuf; exact hsuf
          rw [hm] at this; cases this
        have hdne : s.close.drop (j + 1) ≠ [] := by
          intro h
          have := congrArg List.length h
          simp only [List.length_drop, List.length_nil] at this
          omega
        have hmod : (s.used + 1) % 2 ^ 32 = s.used + 1 := Nat.mod_eq_of_lt (by omega)
        refine ⟨fun h => (by rw [hin] at h; cases h), fun _ => Or.inr ⟨j + 1, hlt, ?_, ?_, hsuf⟩⟩
        · simp only [hmod]; omega
        · simp only [if_neg hdne]
  · -- outside a span `apply` does nothing
    obtain ⟨hu0, hq0⟩ := hout hin
    rw [apply_of_not_exhausted s cur (Or.inl hin)]
    rcases Bool.eq_false_or_eq_true (tag_match (push_window s.window s.max_win t) s.open)
      with hm | hm
    · rw [accept_enter s t hin hm]
      exact ⟨fun h => (by cases h), fun _ => Or.inl ⟨hb, rfl⟩⟩
    · rw [accept_outside s t hin hm]
      have hdr : drain s.forceq t = [] := by rw [hq0]; rfl
      refine ⟨fun _ => ⟨hu0, hdr⟩, fun h => ?_⟩
      rw [hin] at h; cases h

theorem honest_inv_bound (s : smpl_rbudget_ctx F) (hb : 0 < s.budget) (hc : s.close ≠ [])
    (hinv : honest_inv s) : s.used ≤ s.budget + s.close.length - 1 := by
  have hk : 0 < s.close.length := List.length_pos.mpr hc
  obtain ⟨hout, hins⟩ := hinv
  rcases Bool.eq_false_or_eq_true s.inside with hin | hin
  · rcases hins hin with ⟨hlt, _⟩ | ⟨j, hj, hused, _, _⟩ <;> omega
  · have := (hout hin).1
    omega

theorem honest_inv_run [FloatOps F] (rounds : List (llama_token_data_array F × Int)) :
    ∀ s : smpl_rbudget_ctx F, s.hard = true → 0 < s.budget → s.close ≠ [] →
      (s.close.length : Int) ≤ s.max_win → s.budget + s.close.length ≤ 2 ^ 32 →
      honest_run s rounds = true → honest_inv s → honest_inv (rounds_run s rounds) := by
  induction rounds with
  | nil => intro s _ _ _ _ _ _ h; exact h
  | cons r rest ih =>
    intro s hhard hb hc hcap hnw hon hinv
    simp only [honest_run, Bool.and_eq_true, Bool.or_eq_true, beq_iff_eq] at hon
    obtain ⟨⟨_, hforced⟩, hrest⟩ := hon
    obtain ⟨_, g2, g3, g4, _, g6⟩ := round_with_config s r
    exact ih (round_with s r) (by rw [g4]; exact hhard) (by rw [g3]; exact hb)
      (by rw [g2]; exact hc) (by rw [g2, g6]; exact hcap) (by rw [g2, g3]; exact hnw) hrest
      (honest_inv_round s r hhard hb hc hcap hnw hforced hinv)

theorem honest_run_take [FloatOps F] (rounds : List (llama_token_data_array F × Int)) :
    ∀ (s : smpl_rbudget_ctx F) (n : Nat), honest_run s rounds = true →
      honest_run s (rounds.take n) = true := by
  induction rounds with
  | nil => intro s n h; simpa using h
  | cons r rest ih =>
    intro s n h
    cases n with
    | zero => rfl
    | succ n =>
      simp only [honest_run, Bool.and_eq_true] at h
      simp only [List.take_succ_cons, honest_run, Bool.and_eq_true]
      exact ⟨h.1, ih (round_with s r) n h.2⟩

/-- In hard mode `forced_token` is the token `apply` clamps to: when it is `some T` the
returned candidate set is the given one clamped to `T`, and when it is `none` the
candidate set is returned unchanged. -/
theorem forced_token_spec [FloatOps F] (s : smpl_rbudget_ctx F)
    (cur : llama_token_data_array F) (hhard : s.hard = true) :
    (∀ T, forced_token s = some T → (smpl_rbudget_apply s cur).2 = clamp_to_token cur T) ∧
    (forced_token s = none → (smpl_rbudget_apply s cur).2 = cur) := by
  by_cases hex : s.inside = false ∨ s.budget = 0 ∨ s.used < s.budget
  · rw [apply_of_not_exhausted s cur hex, forced_token_none s hex]
    exact ⟨fun T h => (by cases h), fun _ => rfl⟩
  · have hin : s.inside = true := by
      cases hi : s.inside
      · exact absurd (Or.inl hi) hex
      · rfl
    have hb : 0 < s.budget := by
      rcases Nat.eq_zero_or_pos s.budget with h0 | h0
      · exact absurd (Or.inr (Or.inl h0)) hex
      · exact h0
    have hu : s.budget ≤ s.used := by
      rcases Nat.lt_or_ge s.used s.budget with h0 | h0
      · exact absurd (Or.inr (Or.inr h0)) hex
      · exact h0
    cases hq : (if s.forceq = [] then s.close else s.forceq) with
    | nil =>
      have hq1 : s.forceq = [] := by
        by_cases hf : s.forceq = []
        · exact hf
        · rw [if_neg hf] at hq; exact hq
      have hc1 : s.close = [] := by rw [if_pos hq1] at hq; exact hq
      rw [apply_hard_empty s cur hhard hq1 hc1]
      refine ⟨fun T h => ?_, fun _ => rfl⟩
      have : forced_token s = none := by
        unfold forced_token begin_force_close
        simp [hq1, hc1]
      rw [this] at h; cases h
    | cons front rest =>
      rw [apply_hard s cur hhard hin hb hu front rest hq,
        forced_token_hard s hhard hin hb hu front rest hq]
      refine ⟨fun T h => ?_, fun h => (by cases h)⟩
      rw [Option.some.inj h]

/-- C18. Budget bound under an honest host: in hard mode with budget `B > 0` and a
non-empty close sequence of length `k`, in every run from a freshly constructed instance
whose steps are "apply on a non-empty candidate set, then accept", where the accepted
token is the clamped one whenever `apply` clamps and arbitrary otherwise, `used` is at
most `B + k - 1` after every round and after every `apply`. -/
theorem honest_budget_bound [FloatOps F] (budget : Nat) (open_seq close_seq : List Int)
    (bias : F) (rounds : List (llama_token_data_array F × Int)) (n : Nat)
    (hb : 0 < budget) (hc : close_seq ≠ [])
    (hon : honest_run
      (llama_sampler_init_reasoning_budget budget open_seq close_seq bias true) rounds = true) :
    (rounds_run (llama_sampler_init_reasoning_budget budget open_seq close_seq bias true)
        (rounds.take n)).used ≤ budget + close_seq.length - 1 ∧
    (∀ cur : llama_token_data_array F,
      (smpl_rbudget_apply
        (rounds_run (llama_sampler_init_reasoning_budget budget open_seq close_seq bias true)
          (rounds.take n)) cur).1.used ≤ budget + close_seq.length - 1) := by
  have hk : 0 < close_seq.length := List.length_pos.mpr hc
  have hbound : (rounds_run
      (llama_sampler_init_reasoning_budget budget open_seq close_seq bias true)
      (rounds.take n)).used ≤ budget + close_seq.length - 1 := by
    by_cases hnw : budget + close_seq.length ≤ 2 ^ 32
    · -- the counter cannot wrap: the invariant gives the bound
      have hinv := honest_inv_run (rounds.take n)
        (llama_sampler_init_reasoning_budget budget open_seq close_seq bias true)
        rfl hb hc (by simp only [llama_sampler_init_reasoning_budget]; omega) hnw
        (honest_run_take rounds _ n hon)
        ⟨fun _ => ⟨rfl, rfl⟩, fun h => (by cases h)⟩
      have hcfg : same_config
          (llama_sampler_init_reasoning_budget budget open_seq close_seq bias true)
          (rounds_run (llama_sampler_init_reasoning_budget budget open_seq close_seq bias true)
            (rounds.take n)) := by
        generalize llama_sampler_init_reasoning_budget budget open_seq close_seq bias true = s0
        generalize rounds.take n = rs
        induction rs generalizing s0 with
        | nil => exact same_config_refl s0
        | cons r rest ih =>
          exact same_config_trans (round_with_config s0 r) (ih (round_with s0 r))
      have := honest_inv_bound _ (by rw [hcfg.2.2.1]; exact hb) (by rw [hcfg.2.1]; exact hc) hinv
      rw [hcfg.2.2.1, hcfg.2.1] at this
      exact this
    · -- the bound is at least the largest value of the 32-bit counter
      have hlt := rounds_run_used_lt (rounds.take n)
        (llama_sampler_init_reasoning_budget budget open_seq close_seq bias true)
        (Nat.pos_of_ne_zero (by norm_num))
      omega
  refine ⟨hbound, fun cur => ?_⟩
  rw [(apply_inside_used _ cur).2]
  exact hbound

/-- Witness for C18 on Scenario A (budget 2, close = 9): the honest run 5, 1, 2, 9 keeps
`used` at most 2 after each of its rounds; it reaches 2 before the forced close token. -/
theorem honest_budget_bound_witness :
    honest_run ctxA roundsA = true ∧
    (rounds_run ctxA (roundsA.take 3)).used = 2 ∧
    (rounds_run ctxA (roundsA.take 3)).used ≤ 2 + [(9 : Int)].length - 1 := by
  have hon : honest_run
      (llama_sampler_init_reasoning_budget 2 [5] [9] (ZScore.fin 0) true) roundsA = true := by
    decide
  exact ⟨hon, by decide,
    (honest_budget_bound 2 [5] [9] (ZScore.fin 0) roundsA 3 (by decide) (by decide) hon).1⟩

/-! ## The sorted flag under bias -/

theorem bias_loop_sorted [FloatOps F] (want : Int) (bias : F) :
    ∀ ds : List (llama_token_data F), scores_sorted ds = true →
      (∀ (j : Nat) (d : llama_token_data F), ds[j]? = some d → d.id = want →
        (∀ m e, m < j → ds[m]? = some e → e.id ≠ want) →
        (∀ p, 0 < j → ds[j - 1]? = some p →
          FloatOps.lt p.logit (FloatOps.add d.logit bias) = false) ∧
        (∀ n, ds[j + 1]? = some n →
          FloatOps.lt (FloatOps.add d.logit bias) n.logit = false)) →
      scores_sorted (bias_loop want bias ds) = true := by
  intro ds
  induction ds with
  | nil => intro _ _; rfl
  | cons x rest ih =>
    intro hs hcond
    by_cases hx : x.id = want
    · -- the first entry is the biased one: only the pair with its successor changes
      have h0 := (hcond 0 x (by simp) hx (fun m e hm _ => absurd hm (Nat.not_lt_zero m))).2
      simp only [bias_loop, hx, if_true]
      cases rest with
      | nil => rfl
      | cons n r =>
        simp only [scores_sorted, Bool.and_eq_true] at hs ⊢
        exact ⟨by rw [h0 n (by simp)]; rfl, hs.2⟩
    · simp only [bias_loop, hx, if_false]
      cases rest with
      | nil => rfl
      | cons y r =>
        simp only [scores_sorted, Bool.and_eq_true] at hs
        have hrest : scores_sorted (bias_loop want bias (y :: r)) = true := by
          apply ih hs.2
          intro j d hd hid hfirst
          have hfirst' : ∀ m e, m < j + 1 → (x :: y :: r)[m]? = some e → e.id ≠ want := by
            intro m e hm he
            cases m with
            | zero =>
              simp only [List.getElem?_cons_zero, Option.some.injEq] at he
              rw [← he]; exact hx
            | succ m => exact hfirst m e (by omega) (by simpa using he)
          obtain ⟨hp, hn⟩ := hcond (j + 1) d (by simpa using hd) hid hfirst'
          refine ⟨?_, ?_⟩
          · intro p hj hpj
            apply hp p (by omega)
            have : j + 1 - 1 = (j - 1) + 1 := by omega
            rw [this]
            simpa using hpj
          · intro n hnj
            exact hn n (by simpa using hnj)
        by_cases hy : y.id = want
        · have h1 := (hcond 1 y (by simp) hy (by
            intro m e hm he
            have hm0 : m = 0 := by omega
            subst hm0
            simp only [List.getElem?_cons_zero, Option.some.injEq] at he
            rw [← he]; exact hx)).1 x (by omega) (by simp)
          simp only [bias_loop, hy, if_true] at hrest ⊢
          simp only [scores_sorted, Bool.and_eq_true]
          exact ⟨by rw [h1]; rfl, hrest⟩
        · simp only [bias_loop, hy, if_false] at hrest ⊢
          simp only [scores_sorted, Bool.and_eq_true]
          exact ⟨hs.1, hrest⟩

/-- C19 (as amended). The sorted flag under soft-mode bias: `bias_token` never changes
the sorted flag. For a candidate set that is flagged sorted and whose scores are in
non-increasing order, the returned set, whose flag is still set, has its scores in
non-increasing order when no entry has id `want`, and when the new score of the biased
entry (the first with id `want`) is not above the score of the entry before it and not
below the score of the entry after it. -/
theorem bias_token_sorted [FloatOps F] (cur : llama_token_data_array F) (want : Int)
    (bias : F) (hflag : cur.sorted = true) (hs : scores_sorted cur.data = true) :
    (bias_token cur want bias).sorted = true ∧
    ((∀ d ∈ cur.data, d.id ≠ want) → scores_sorted (bias_token cur want bias).data = true) ∧
    (∀ (j : Nat) (d : llama_token_data F), cur.data[j]? = some d → d.id = want →
      (∀ m e, m < j → cur.data[m]? = some e → e.id ≠ want) →
      (∀ p, 0 < j → cur.data[j - 1]? = some p →
        FloatOps.lt p.logit (FloatOps.add d.logit bias) = false) →
      (∀ n, cur.data[j + 1]? = some n →
        FloatOps.lt (FloatOps.add d.logit bias) n.logit = false) →
      scores_sorted (bias_token cur want bias).data = true) := by
  refine ⟨hflag, ?_, ?_⟩
  · intro habsent
    show scores_sorted (bias_loop want bias cur.data) = true
    rw [bias_loop_absent want bias cur.data habsent]
    exact hs
  · intro j d hd hid hfirst hp hn
    show scores_sorted (bias_loop want bias cur.data) = true
    apply bias_loop_sorted want bias cur.data hs
    intro j' d' hd' hid' hfirst'
    -- the first entry with id `want` is unique
    have hjj : j' = j := by
      rcases Nat.lt_trichotomy j' j with h | h | h
      · exact absurd hid' (hfirst j' d' h hd')
      · exact h
      · exact absurd hid (hfirst' j d h hd)
    subst hjj
    have hdd : d' = d := Option.some.inj (hd'.symm.trans hd)
    subst hdd
    exact ⟨hp, hn⟩

/-- Witness for C19: in `cur9` (scores 3, 0) a bias of 2 on token 9 gives the scores
3, 2, still in non-increasing order; the flag stays set. -/
theorem bias_token_sorted_witness :
    (cur9.sorted = true ∧ scores_sorted cur9.data = true) ∧
    (bias_token cur9 9 (ZScore.fin 2)).data = [cand 1 3, cand 9 2] ∧
    scores_sorted (bias_token cur9 9 (ZScore.fin 2)).data = true := by
  have hin : cur9.sorted = true ∧ scores_sorted cur9.data = true := by decide
  refine ⟨hin, by decide, ?_⟩
  apply (bias_token_sorted cur9 9 (ZScore.fin 2) hin.1 hin.2).2.2 1 (cand 9 0) rfl rfl
  · intro m e hm he
    have hm0 : m = 0 := by omega
    subst hm0
    have : e = cand 1 3 := (Option.some.inj he).symm
    subst this
    decide
  · intro p _ hp
    have : p = cand 1 3 := (Option.some.inj hp).symm
    subst this
    decide
  · intro n hn
    cases hn

/-- Counterexample to C19 as stated. The candidate set `cur9` is flagged sorted and its
scores 3, 0 are in non-increasing order; `bias_token` with token 9 and bias 5 leaves the
flag set, but the scores become 3, 5, which are not in non-increasing order. The same
happens through `apply` in soft mode (Scenario B). -/
theorem bias_token_breaks_sorted :
    (cur9.sorted = true ∧ scores_sorted cur9.data = true) ∧
    ((bias_token cur9 9 (ZScore.fin 5)).sorted = true ∧
      (bias_token cur9 9 (ZScore.fin 5)).data = [cand 1 3, cand 9 5] ∧
      scores_sorted (bias_token cur9 9 (ZScore.fin 5)).data = false) ∧
    ((smpl_rbudget_apply ctxB cur9).2.sorted = true ∧
      scores_sorted (smpl_rbudget_apply ctxB cur9).2.data = false) := by
  decide

/-! ## Tag materialisation -/

theorem resize_length (out : List Int) (n : Nat) : (resize out n).length = n := by
  simp only [resize, List.length_append, List.length_take, List.length_replicate]
  omega

theorem resize_of_le (out : List Int) (n : Nat) (h : n ≤ out.length) :
    resize out n = out.take n := by
  simp only [resize, Nat.sub_eq_zero_of_le h, List.replicate_zero, List.append_nil]

theorem write_buffer_length (buf written : List Int) :
    (write_buffer buf written).length = buf.length := by
  simp only [write_buffer, List.length_append, List.length_take, List.length_drop]
  omega

theorem abs_eq_natAbs (r : Int) : (if r ≥ 0 then r else -r) = (r.natAbs : Int) := by
  split <;> omega

theorem tok_cons (tokenize : List Char → Nat → int32_t × List Int) (ch : Char)
    (chs : List Char) :
    tok tokenize (some (ch :: chs)) =
      if sizing_count tokenize (ch :: chs) = INT32_MIN then none
      else if sizing_need tokenize (ch :: chs) = 0 then some []
      else if fill_count tokenize (ch :: chs) = (sizing_need tokenize (ch :: chs) : Int) then
        some (filled_buffer tokenize (ch :: chs))
      else if fill_count tokenize (ch :: chs) = INT32_MIN then none
      else some (resize (filled_buffer tokenize (ch :: chs))
        (fill_count tokenize (ch :: chs)).natAbs) := by
  simp only [tok, abs_eq_natAbs, Int.toNat_ofNat, sizing_count, sizing_need, fill_count,
    filled_buffer, resize, List.take_nil, List.length_nil, Nat.sub_zero, List.nil_append]
  by_cases hmin : (tokenize (ch :: chs) 0).1.val = INT32_MIN
  · simp [hmin]
  · simp only [hmin, if_false]
    by_cases h0 : (tokenize (ch :: chs) 0).1.val.natAbs = 0
    · simp [h0]
    · have hpos : ¬ (((tokenize (ch :: chs) 0).1.val.natAbs : Int) ≤ 0) := by omega
      simp only [hpos, if_false, h0]
      by_cases h2 : (tokenize (ch :: chs) (tokenize (ch :: chs) 0).1.val.natAbs).1.val
          = ((tokenize (ch :: chs) 0).1.val.natAbs : Int)
      · simp [h2]
      · simp [h2]

/-- C20 (as amended). Tag materialisation, for an arbitrary tokenizer with `int32_t`
results: a null or empty tag gives the empty sequence whatever the tokenizer is;
otherwise, when the sizing pass does not return `INT32_MIN`, with `need` the absolute
value of its result, `need = 0` gives the empty sequence, a fill pass that returns `need`
gives the filled buffer, and a fill pass that returns `r2 ≠ need` other than `INT32_MIN`
gives a sequence of length `|r2|`, which, when `|r2| ≤ need`, is the prefix of that
length of the filled buffer. -/
theorem tag_materialisation (tokenize : List Char → Nat → int32_t × List Int) (ch : Char)
    (chs : List Char) :
    tok tokenize none = some [] ∧ tok tokenize (some []) = some [] ∧
    (sizing_count tokenize (ch :: chs) ≠ INT32_MIN →
      (sizing_need tokenize (ch :: chs) = 0 → tok tokenize (some (ch :: chs)) = some []) ∧
      (0 < sizing_need tokenize (ch :: chs) →
        (filled_buffer tokenize (ch :: chs)).length = sizing_need tokenize (ch :: chs) ∧
        (fill_count tokenize (ch :: chs) = (sizing_need tokenize (ch :: chs) : Int) →
          tok tokenize (some (ch :: chs)) = some (filled_buffer tokenize (ch :: chs))) ∧
        (fill_count tokenize (ch :: chs) ≠ (sizing_need tokenize (ch :: chs) : Int) →
          fill_count tokenize (ch :: chs) ≠ INT32_MIN →
          ∃ out, tok tokenize (some (ch :: chs)) = some out ∧
            out.length = (fill_count tokenize (ch :: chs)).natAbs ∧
            ((fill_count tokenize (ch :: chs)).natAbs ≤ sizing_need tokenize (ch :: chs) →
              out = (filled_buffer tokenize (ch :: chs)).take
                  (fill_count tokenize (ch :: chs)).natAbs ∧
              out <+: filled_buffer tokenize (ch :: chs))))) := by
  have hlen : (filled_buffer tokenize (ch :: chs)).length = sizing_need tokenize (ch :: chs) := by
    simp only [filled_buffer, write_buffer_length, List.length_replicate]
  refine ⟨rfl, rfl, ?_⟩
  intro hmin
  refine ⟨?_, ?_⟩
  · intro h0
    rw [tok_cons, if_neg hmin, if_pos h0]
  · intro hpos
    have hne : ¬ sizing_need tokenize (ch :: chs) = 0 := by omega
    refine ⟨hlen, ?_, ?_⟩
    · intro h2
      rw [tok_cons, if_neg hmin, if_neg hne, if_pos h2]
    · intro h2 h2min
      refine ⟨_, by rw [tok_cons, if_neg hmin, if_neg hne, if_neg h2, if_neg h2min],
        resize_length _ _, ?_⟩
      intro hle
      rw [resize_of_le _ _ (by rw [hlen]; exact hle)]
      exact ⟨rfl, List.take_prefix _ _⟩

/-- Witness for C20: a tokenizer that sizes the tag at 3 tokens, stores 7, 8, 9 and
returns 2 on the fill pass gives the sequence 7, 8. -/
theorem tag_materialisation_witness :
    sizing_count tokenize_long ['<', 't', '>'] = -3 ∧
    sizing_need tokenize_long ['<', 't', '>'] = 3 ∧
    fill_count tokenize_long ['<', 't', '>'] = 2 ∧
    filled_buffer tokenize_long ['<', 't', '>'] = [7, 8, 9] ∧
    tok tokenize_long (some ['<', 't', '>']) = some [7, 8] ∧
    (∃ out, tok tokenize_long (some ['<', 't', '>']) = some out ∧
      out.length = (fill_count tokenize_long ['<', 't', '>']).natAbs) := by
  have hmin : sizing_count tokenize_long ['<', 't', '>'] ≠ INT32_MIN := by decide
  have hsz : 0 < sizing_need tokenize_long ['<', 't', '>'] := by decide
  have hfc : fill_count tokenize_long ['<', 't', '>']
      ≠ (sizing_need tokenize_long ['<', 't', '>'] : Int) := by decide
  have hfm : fill_count tokenize_long ['<', 't', '>'] ≠ INT32_MIN := by decide
  obtain ⟨out, h1, h2, _⟩ :=
    (((tag_materialisation tokenize_long '<' ['t', '>']).2.2 hmin).2 hsz).2.2 hfc hfm
  refine ⟨by decide, by decide, by decide, by decide, by decide, out, h1, h2⟩

/-- Counterexample to C20 as stated. First, the sizing pass asks for one token and the
fill pass stores token 7 and returns -3: the sequence gets length 3 by padding with two
tokens 0 that the tokenizer never wrote; it is 7, 0, 0, which is not a prefix of the
filled buffer 7. Second, when the fill pass returns `INT32_MIN` the negation overflows
and the source has no defined result, where the claim promises a sequence of length
`2^31`. -/
theorem tag_padded_with_zeros :
    (sizing_need tokenize_short ['<', 't', '>'] = 1 ∧
      fill_count tokenize_short ['<', 't', '>'] = -3 ∧
      filled_buffer tokenize_short ['<', 't', '>'] = [7] ∧
      tok tokenize_short (some ['<', 't', '>']) = some [7, 0, 0] ∧
      ¬ ([7, 0, 0] <+: filled_buffer tokenize_short ['<', 't', '>'])) ∧
    (sizing_need tokenize_overflow ['<', 't', '>'] = 1 ∧
      fill_count tokenize_overflow ['<', 't', '>'] = INT32_MIN ∧
      tok tokenize_overflow (some ['<', 't', '>']) = none) := by
  decide

end RBudget
